import Mathlib

/-!
# Mini blockchain: Merkle aggregation, proof of work, proof of stake

A shallow embedding of the C++ exercises `Exercice1.cpp` .. `Exercice4.cpp`.

Conventions of the embedding.

* `std::string` is `String`; `std::vector<T>` is `List T` (`push_back` appends at the end).
* The digest `sha256` (OpenSSL's SHA-256 rendered as hexadecimal text) is a parameter
  `sha256 : String → String` of every function that hashes, so that every statement
  holds for every digest function. The function `sha256` of the sources is itself the
  definition `sha256` below, with the library function `SHA256` of OpenSSL as a parameter.
* The stakes of `selectValidator` live in any type with a zero, an addition and a decidable
  order; the value drawn from the random generator is a parameter `r`.
* `int` and `long long` fields are `Int`. The only arithmetic on them is `nonce++`; it is
  modelled without overflow (an overflow would need `2^63` loop iterations).
* `double` amounts are the exact rational value of the (finite) double.
* The clock read by the `Block` constructor is the parameter `now`.
* The `do .. while` loop of `mineBlock` may run forever, so it takes a `fuel` argument that
  bounds the number of iterations; `none` means the loop is still running when the fuel is
  used up. A call of `mineBlock` returns exactly when some fuel gives `some _`.
-/

set_option autoImplicit false
set_option maxRecDepth 100000

/-! ## Library functions used by the sources -/

/-- Text written by `ss << fixed << setprecision(2) << x` for a finite double of exact value
`q`: a minus sign when `q` is negative, the integer part in decimal, a point and exactly two
fractional digits, the value being rounded to the nearest hundredth (ties to even, as the C
library does on the exact binary value). The doubles `-0.0` (printed `-0.00`), NaN and the
infinities have no rational value and are outside this model. -/
def fixed2 (q : ℚ) : String :=
  let n := q.num.natAbs * 100
  let k := n / q.den
  let r := n % q.den
  let m := if 2 * r < q.den then k else if q.den < 2 * r then k + 1
    else if k % 2 = 0 then k else k + 1
  (if q < 0 then "-" else "") ++ toString (m / 100) ++ "." ++ toString (m % 100 / 10)
    ++ toString (m % 10)

/-- The value of `s.substr(pos, len)` for `pos ≤ s.size()`: at most `len` characters
starting at `pos`. -/
def substr (s : String) (pos len : Nat) : String :=
  ⟨(s.data.drop pos).take len⟩

/-- The string built by `std::string(n, c)`: `n` copies of `c`. -/
def fill (n : Nat) (c : Char) : String :=
  ⟨List.replicate n c⟩

/-! ## The digest `sha256` (same text in the four exercises) -/

/-- Modelled from the spec: the macro `SHA256_DIGEST_LENGTH` of `openssl/sha.h`, the number
of bytes of a SHA-256 digest (32 bytes, that is 256 bits). -/
def SHA256_DIGEST_LENGTH : Nat := 32

/-- Text written by `ss << hex << setw(2) << setfill('0') << n` for an `int` `n` that is not
negative: the digits of `n` in base 16, in lowercase, padded on the left with `'0'` to at
least two characters. -/
def hexWidth2 (n : Nat) : String :=
  ⟨List.leftpad 2 '0' (Nat.toDigits 16 n)⟩

/-- `sha256(data)`. The library function `SHA256` of OpenSSL is a parameter: `SHA256 data i`
is the value it writes at `hash[i]`, which the `unsigned char` holds modulo 256. The loop
`for (i = 0; i < SHA256_DIGEST_LENGTH; i++)` appends the rendering of each byte to `ss`. -/
def sha256 (SHA256 : String → Nat → Nat) (data : String) : String :=
  (List.range SHA256_DIGEST_LENGTH).foldl
    (fun ss i => ss ++ hexWidth2 (SHA256 data i % 256)) ""

/-! ## The Merkle folding loop (same text in `Exercice1.cpp` and `Exercice4.cpp`) -/

/-- The `if (layer.size() % 2 != 0) layer.push_back(layer.back());` step. -/
def padLayer (layer : List String) : List String :=
  if layer.length % 2 != 0 then
    match layer.getLast? with
    | some x => layer ++ [x]
    | none => layer
  else layer

/-- The inner loop `for (i = 0; i < layer.size(); i += 2)
next.push_back(sha256(layer[i] + layer[i + 1]));`. The result is `none` when `layer[i + 1]`
is read past the end of the layer (an odd number of elements). -/
def hashPairs (sha256 : String → String) : List String → Option (List String)
  | [] => some []
  | [_] => none
  | l :: r :: rest => (hashPairs sha256 rest).map (fun next => sha256 (l ++ r) :: next)

/-- The loop `while (layer.size() > 1) { pad; pair; layer = next; }` followed by
`return layer[0];`. Each unit of `fuel` pays for one evaluation of the loop condition;
`none` means the fuel ran out or an element was read out of range. -/
def merkleLoop (sha256 : String → String) : Nat → List String → Option String
  | 0, _ => none
  | fuel + 1, layer =>
    if layer.length > 1 then
      match hashPairs sha256 (padLayer layer) with
      | some next => merkleLoop sha256 fuel next
      | none => none
    else layer.head?

namespace Exercice1

/-- `merkleRoot(vector<string> transactions)` of `Exercice1.cpp`. The loop is given
`transactions.size()` units of fuel, which is always enough. -/
def merkleRoot (sha256 : String → String) (transactions : List String) : String :=
  if transactions.isEmpty then ""
  else (merkleLoop sha256 transactions.length (transactions.map sha256)).getD ""

end Exercice1

namespace Exercice2

/-- `struct Transaction` of `Exercice2.cpp`; the fields `from` and `to` are written `from_` and
`to_` because `from` and `to` are keywords. -/
structure Transaction where
  from_ : String
  to_ : String
  amount : ℚ
deriving DecidableEq

/-- `Transaction::toString` of `Exercice2.cpp`. -/
def Transaction.toString (t : Transaction) : String :=
  t.from_ ++ " -> " ++ t.to_ ++ " : " ++ fixed2 t.amount

/-- `struct Block` of `Exercice2.cpp`. -/
structure Block where
  index : Int
  prevHash : String
  transactions : List Transaction
  timestamp : Int
  nonce : Int
  hash : String
deriving DecidableEq

/-- The contents of the stream `ss` of `Block::calculateHash` when it is hashed:
`ss << index << prevHash << timestamp << nonce;` followed by `ss << t.toString()` for every
transaction in order. -/
def Block.hashInput (b : Block) : String :=
  b.transactions.foldl (fun ss t => ss ++ t.toString)
    (toString b.index ++ b.prevHash ++ toString b.timestamp ++ toString b.nonce)

/-- `Block::calculateHash` of `Exercice2.cpp`. -/
def Block.calculateHash (sha256 : String → String) (b : Block) : String :=
  sha256 b.hashInput

/-- The constructor `Block::Block(idx, prev, txs)` of `Exercice2.cpp`; `now` is the clock
value it reads. `hash` is the empty string until the body assigns it. -/
def Block.new (sha256 : String → String) (now : Int) (idx : Int) (prev : String)
    (txs : List Transaction) : Block :=
  let b : Block :=
    { index := idx, prevHash := prev, transactions := txs, timestamp := now, nonce := 0,
      hash := "" }
  { b with hash := b.calculateHash sha256 }

/-- The loop `do { nonce++; hash = calculateHash(); } while (hash.substr(0, difficulty)
!= target);` of `Block::mineBlock` in `Exercice2.cpp`, with at most `fuel` iterations. -/
def Block.mineLoop (sha256 : String → String) (difficulty : Nat) (target : String) :
    Nat → Block → Option Block
  | 0, _ => none
  | fuel + 1, b =>
    let b := { b with nonce := b.nonce + 1 }
    let b := { b with hash := b.calculateHash sha256 }
    if substr b.hash 0 difficulty != target then
      Block.mineLoop sha256 difficulty target fuel b
    else some b

/-- `Block::mineBlock(difficulty)` of `Exercice2.cpp` for a difficulty that is not
negative. -/
def Block.mineBlock (sha256 : String → String) (difficulty : Nat) (fuel : Nat) (b : Block) :
    Option Block :=
  let target := fill difficulty '0'
  Block.mineLoop sha256 difficulty target fuel b

/-- `struct Blockchain` of `Exercice2.cpp`. -/
structure Blockchain where
  chain : List Block
deriving DecidableEq

/-- The constructor `Blockchain::Blockchain()` of `Exercice2.cpp`. -/
def Blockchain.new (sha256 : String → String) (now : Int) : Blockchain :=
  let genesisTx : List Transaction := [{ from_ := "genesis", to_ := "network", amount := 0 }]
  let genesis := Block.new sha256 now 0 "0" genesisTx
  { chain := [] ++ [genesis] }

/-- `Blockchain::getLastBlock`: `chain.back()`, which has no value on an empty chain. -/
def Blockchain.getLastBlock (c : Blockchain) : Option Block :=
  c.chain.getLast?

/-- `Blockchain::addBlock` of `Exercice2.cpp`: `newBlock.prevHash = getLastBlock().hash;
chain.push_back(newBlock);`. There is no result on an empty chain. -/
def Blockchain.addBlock (c : Blockchain) (newBlock : Block) : Option Blockchain :=
  match c.getLastBlock with
  | some last =>
    let newBlock := { newBlock with prevHash := last.hash }
    some { chain := c.chain ++ [newBlock] }
  | none => none

/-- The loop of `Blockchain::isValid` of `Exercice2.cpp` from index `i` on. Each unit of
fuel pays for one evaluation of the loop condition. -/
def Blockchain.isValidFrom (sha256 : String → String) (c : Blockchain) : Nat → Nat → Bool
  | 0, _ => true
  | fuel + 1, i =>
    if h : i < c.chain.length then
      if (c.chain.get ⟨i, h⟩).prevHash != (c.chain.get ⟨i - 1, by omega⟩).hash then false
      else if (c.chain.get ⟨i, h⟩).hash != (c.chain.get ⟨i, h⟩).calculateHash sha256 then
        false
      else Blockchain.isValidFrom sha256 c fuel (i + 1)
    else true

/-- `Blockchain::isValid` of `Exercice2.cpp`. -/
def Blockchain.isValid (sha256 : String → String) (c : Blockchain) : Bool :=
  c.isValidFrom sha256 c.chain.length 1

end Exercice2

namespace Exercice3

/-- `struct Transaction` of `Exercice3.cpp`; the fields `from` and `to` are written `from_` and
`to_` because `from` and `to` are keywords. -/
structure Transaction where
  from_ : String
  to_ : String
  amount : ℚ
deriving DecidableEq

/-- `Transaction::toString` of `Exercice3.cpp`. -/
def Transaction.toString (t : Transaction) : String :=
  t.from_ ++ " -> " ++ t.to_ ++ " : " ++ fixed2 t.amount

/-- `struct Block` of `Exercice3.cpp`. -/
structure Block where
  index : Int
  prevHash : String
  transactions : List Transaction
  timestamp : Int
  nonce : Int
  validator : String
  hash : String
deriving DecidableEq

/-- The contents of the stream `ss` of `Block::calculateHash` when it is hashed:
`ss << index << prevHash << timestamp << nonce << validator;` followed by
`ss << t.toString()` for every transaction in order. -/
def Block.hashInput (b : Block) : String :=
  b.transactions.foldl (fun ss t => ss ++ t.toString)
    (toString b.index ++ b.prevHash ++ toString b.timestamp ++ toString b.nonce
      ++ b.validator)

/-- `Block::calculateHash` of `Exercice3.cpp`. -/
def Block.calculateHash (sha256 : String → String) (b : Block) : String :=
  sha256 b.hashInput

/-- `Block::validatePoS(val)` of `Exercice3.cpp`. -/
def Block.validatePoS (sha256 : String → String) (val : String) (b : Block) : Block :=
  let b := { b with validator := val }
  { b with hash := b.calculateHash sha256 }

end Exercice3

namespace Exercice4

/-- `struct Transaction` of `Exercice4.cpp`. -/
structure Transaction where
  id : String
  sender : String
  receiver : String
  amount : ℚ
deriving DecidableEq

/-- `Transaction::toString`. -/
def Transaction.toString (t : Transaction) : String :=
  t.id ++ "|" ++ t.sender ++ "->" ++ t.receiver ++ ":" ++ fixed2 t.amount

/-- `merkleRoot(const vector<Transaction> &txs)` of `Exercice4.cpp`. The loop is given
`txs.size()` units of fuel, which is always enough. -/
def merkleRoot (sha256 : String → String) (txs : List Transaction) : String :=
  if txs.isEmpty then ""
  else (merkleLoop sha256 txs.length (txs.map fun t => sha256 t.toString)).getD ""

/-- `struct Block` of `Exercice4.cpp`. -/
structure Block where
  index : Int
  prevHash : String
  transactions : List Transaction
  merkleRootHash : String
  timestamp : Int
  nonce : Int
  validator : String
  hash : String
deriving DecidableEq

/-- The contents of the stream `ss` of `Block::calculateHash` when it is hashed:
`ss << index << prevHash << merkleRootHash << timestamp << nonce << validator;` followed by
`ss << t.toString()` for every transaction in order. -/
def Block.hashInput (b : Block) : String :=
  b.transactions.foldl (fun ss t => ss ++ t.toString)
    (toString b.index ++ b.prevHash ++ b.merkleRootHash ++ toString b.timestamp
      ++ toString b.nonce ++ b.validator)

/-- `Block::calculateHash`. -/
def Block.calculateHash (sha256 : String → String) (b : Block) : String :=
  sha256 b.hashInput

/-- The constructor `Block::Block(idx, prev, txs)` (the name `Block.Block` would hide the
type inside its own definition); `now` is the clock value it reads.
`merkleRootHash` and `hash` are empty strings until the body assigns them. -/
def Block.new (sha256 : String → String) (now : Int) (idx : Int) (prev : String)
    (txs : List Transaction) : Block :=
  let b : Block :=
    { index := idx, prevHash := prev, transactions := txs, merkleRootHash := "",
      timestamp := now, nonce := 0, validator := "", hash := "" }
  let b := { b with merkleRootHash := merkleRoot sha256 b.transactions }
  { b with hash := b.calculateHash sha256 }

/-- The loop `do { nonce++; hash = calculateHash(); } while (hash.substr(0, difficulty)
!= target);` of `Block::mineBlock`, with at most `fuel` iterations. -/
def Block.mineLoop (sha256 : String → String) (difficulty : Nat) (target : String) :
    Nat → Block → Option Block
  | 0, _ => none
  | fuel + 1, b =>
    let b := { b with nonce := b.nonce + 1 }
    let b := { b with hash := b.calculateHash sha256 }
    if substr b.hash 0 difficulty != target then
      Block.mineLoop sha256 difficulty target fuel b
    else some b

/-- `Block::mineBlock(difficulty)` for a difficulty that is not negative. -/
def Block.mineBlock (sha256 : String → String) (difficulty : Nat) (fuel : Nat) (b : Block) :
    Option Block :=
  let target := fill difficulty '0'
  Block.mineLoop sha256 difficulty target fuel b

/-- `Block::validatePoS(val)`. -/
def Block.validatePoS (sha256 : String → String) (val : String) (b : Block) : Block :=
  let b := { b with validator := val }
  { b with hash := b.calculateHash sha256 }

/-- `struct Blockchain` of `Exercice4.cpp`. -/
structure Blockchain where
  chain : List Block
deriving DecidableEq

/-- The constructor `Blockchain::Blockchain()`; `now` is the clock value read by the
constructor of the genesis block. -/
def Blockchain.new (sha256 : String → String) (now : Int) : Blockchain :=
  let genesisTx : List Transaction :=
    [{ id := "0", sender := "genesis", receiver := "network", amount := 0 }]
  let genesis := Block.new sha256 now 0 "0" genesisTx
  { chain := [] ++ [genesis] }

/-- `Blockchain::getLastBlock`: `chain.back()`, which has no value on an empty chain. -/
def Blockchain.getLastBlock (c : Blockchain) : Option Block :=
  c.chain.getLast?

/-- `Blockchain::addBlock`: `chain.push_back(b)`. -/
def Blockchain.addBlock (c : Blockchain) (b : Block) : Blockchain :=
  { chain := c.chain ++ [b] }

/-- The loop of `Blockchain::isValid` from index `i` on: `for (; i < chain.size(); ++i)`
with its two early `return false` and the final `return true`. Each unit of fuel pays for
one evaluation of the loop condition. -/
def Blockchain.isValidFrom (sha256 : String → String) (c : Blockchain) : Nat → Nat → Bool
  | 0, _ => true
  | fuel + 1, i =>
    if h : i < c.chain.length then
      if (c.chain.get ⟨i, h⟩).prevHash != (c.chain.get ⟨i - 1, by omega⟩).hash then false
      else if (c.chain.get ⟨i, h⟩).hash != (c.chain.get ⟨i, h⟩).calculateHash sha256 then
        false
      else Blockchain.isValidFrom sha256 c fuel (i + 1)
    else true

/-- `Blockchain::isValid`: the loop starts at `i = 1` and evaluates its condition at most
`chain.size()` times. -/
def Blockchain.isValid (sha256 : String → String) (c : Blockchain) : Bool :=
  c.isValidFrom sha256 c.chain.length 1

end Exercice4

/-! ## Validator selection (same code in `Exercice3.cpp` and `Exercice4.cpp`)

The arithmetic of the stakes is a parameter `α` with a zero, an addition and a decidable
order; the statements made in exact arithmetic take an ordered field for `α`. The value
`r = dist(gen)` drawn from `uniform_real_distribution(0.0, total)` is a parameter. -/

section Selection

variable {α : Type} [Add α] [LE α] [DecidableRel (α := α) (· ≤ ·)]

/-- The first loop of `selectValidator`: `total = 0; for (v : validators) total +=
v.second;`. -/
def totalStake [Zero α] (validators : List (String × α)) : α :=
  validators.foldl (fun total v => total + v.2) 0

/-- The second loop of `selectValidator`, on the entries that remain, `sum` being the
running sum so far: `sum += v.second; if (r <= sum) return v.first;`. The result is `none`
when the loop ends without a `return`. -/
def selectWalk (r : α) : List (String × α) → α → Option String
  | [], _ => none
  | v :: rest, sum =>
    let sum := sum + v.2
    if r ≤ sum then some v.1 else selectWalk r rest sum

/-- `selectValidator(validators)` for the draw `r`: the walk from `sum = 0`, then the
fallback `return validators.back().first;`, which has no value on an empty list. -/
def selectValidator [Zero α] (validators : List (String × α)) (r : α) : Option String :=
  match selectWalk r validators 0 with
  | some name => some name
  | none => validators.getLast?.map (fun v => v.1)

/-- The walk of `selectValidator` with a counter: the position of the entry at which the
loop returns (names need not be distinct), `i` being the position of the first entry that
remains. -/
def selectWalkIndex (r : α) : List (String × α) → α → Nat → Option Nat
  | [], _, _ => none
  | v :: rest, sum, i =>
    let sum := sum + v.2
    if r ≤ sum then some i else selectWalkIndex r rest sum (i + 1)

/-- The position of the entry whose name `selectValidator` returns: the position found by
the walk, or the last position when the fallback is taken. -/
def selectIndex [Zero α] (validators : List (String × α)) (r : α) : Option Nat :=
  match selectWalkIndex r validators 0 0 with
  | some i => some i
  | none => if validators.isEmpty then none else some (validators.length - 1)

/-- The value of `sum` after the first `k` entries were added, `cumulative_{k-1}` in the
words of the specification (`0` for `k = 0`). -/
def cumulative [Zero α] (validators : List (String × α)) (k : Nat) : α :=
  totalStake (validators.take k)

end Selection

/-- The list `validators` of `main` in `Exercice4.cpp`. -/
def mainValidators : List (String × ℚ) :=
  [("Validator_A", 50), ("Validator_B", 30), ("Validator_C", 20)]

/-! ## Auxiliary definitions used to state the claims -/

/-- The layer held by the Merkle folding loop after `k` passes (pad, then pair), `none`
when a pass reads an element out of range. -/
def layerAfter (sha256 : String → String) : Nat → List String → Option (List String)
  | 0, layer => some layer
  | k + 1, layer =>
    match hashPairs sha256 (padLayer layer) with
    | some next => layerAfter sha256 k next
    | none => none

/-- The digest that `calculateHash` returns on the block `b` once its nonce is `n`. -/
def Exercice4.Block.hashAt (sha256 : String → String) (b : Exercice4.Block) (n : Int) :
    String :=
  Exercice4.Block.calculateHash sha256 { b with nonce := n }

/-- The exit test of the mining loop on the block `b` with nonce `n`: the recomputed hash
starts with `d` characters `'0'`. -/
def Exercice4.Block.meets (sha256 : String → String) (d : Nat) (b : Exercice4.Block)
    (n : Int) : Prop :=
  substr (b.hashAt sha256 n) 0 d = fill d '0'

/-! ## Digests used to evaluate the definitions on concrete inputs -/

/-- A digest without collisions: the text itself. -/
def plainDigest (s : String) : String := s

/-- A small digest: four copies of the hexadecimal digit of the sum of the character codes
modulo 16. -/
def toyDigest (s : String) : String :=
  fill 4 (Nat.digitChar ((s.data.map Char.toNat).sum % 16))

/-! ## The inputs of `main` in `Exercice4.cpp` -/

namespace Exercice4

/-- The three transactions `txs` of `main`: amounts `5.0`, `3.5` and `2.0`. -/
def mainTxs : List Transaction :=
  [{ id := "T1", sender := "Diae", receiver := "Aymane", amount := 5 },
   { id := "T2", sender := "Aymane", receiver := "Mouad", amount := mkRat 7 2 },
   { id := "T3", sender := "Imad", receiver := "Smail", amount := 2 }]

/-- The block `powBlock` of `main` as constructed (before mining) on the chain `c`, with
clock value `now`; `none` when the chain is empty. -/
def mainBlock (sha256 : String → String) (now : Int) (c : Blockchain) : Option Block :=
  c.getLastBlock.map fun last => Block.new sha256 now 1 last.hash mainTxs

end Exercice4

/-! ## The formula of the specification for the stored hash -/

namespace Exercice4

/-- The text `serialize(transactions)` of the specification: the canonical texts of the
transactions one after the other. -/
def serialize (txs : List Transaction) : String :=
  String.join (txs.map Transaction.toString)

/-- The right-hand side of the specification's invariant
`hash == H(index ∥ prevHash ∥ merkleRoot ∥ timestamp ∥ nonce ∥ validator ∥
serialize(transactions))`, read on the current fields of the block. -/
def Block.specHash (H : String → String) (b : Block) : String :=
  H (toString b.index ++ b.prevHash ++ b.merkleRootHash ++ toString b.timestamp
    ++ toString b.nonce ++ b.validator ++ serialize b.transactions)

end Exercice4

/-! ## Concrete blocks used to evaluate the definitions -/

namespace Exercice4

/-- A block as constructed on the three transactions of `main`, hashed with `toyDigest`. -/
def demoBlock : Block :=
  Block.new toyDigest 1700000000039 1 "bbbb" mainTxs

/-- The block that mining `demoBlock` returns: the loop stops at nonce 5. -/
def demoMined : Block :=
  { demoBlock with nonce := 5, hash := "0000" }

/-- The genesis block of the chain built with `toyDigest` at clock value 1700000000000;
its hash is `"bbbb"`. -/
def demoGenesis : Block :=
  Block.new toyDigest 1700000000000 0 "0"
    [{ id := "0", sender := "genesis", receiver := "network", amount := 0 }]

/-- The genesis block of `posChain`. -/
def posGenesis : Block :=
  Block.new plainDigest 1000 0 "0"
    [{ id := "0", sender := "genesis", receiver := "network", amount := 0 }]

/-- The second block of `posChain`. -/
def posBlock1 : Block :=
  (Block.new plainDigest 1001 1 posGenesis.hash mainTxs).validatePoS plainDigest
    "Validator_A"

/-- The third block of `posChain`. -/
def posBlock2 : Block :=
  (Block.new plainDigest 1002 2 posBlock1.hash mainTxs).validatePoS plainDigest
    "Validator_B"

/-- A chain of three blocks hashed with the collision-free `plainDigest`: the genesis
block, then two blocks on the transactions of `main`, each built on the hash of the last
block, validated by proof of stake and appended. -/
def posChain : Blockchain :=
  ((Blockchain.new plainDigest 1000).addBlock posBlock1).addBlock posBlock2

/-- The genesis block of `posChain` with the amount of its transaction changed from 0 to
1; the stored `hash` and `prevHash` are kept. -/
def tamperedGenesis : Block :=
  { posGenesis with
    transactions := [{ id := "0", sender := "genesis", receiver := "network", amount := 1 }] }

/-- The second block of `posChain` with the amount of its first transaction changed from
`5.0` to `5.0009765625` (both print as `5.00`); the stored `hash` and `prevHash` are kept. -/
def tamperedBlock1 : Block :=
  { posBlock1 with
    transactions :=
      [{ id := "T1", sender := "Diae", receiver := "Aymane", amount := mkRat 5121 1024 },
       { id := "T2", sender := "Aymane", receiver := "Mouad", amount := mkRat 7 2 },
       { id := "T3", sender := "Imad", receiver := "Smail", amount := 2 }] }

/-- The second block of `posChain` with its nonce changed from 0 to 7; the stored `hash` and
`prevHash` are kept. -/
def renoncedBlock1 : Block :=
  { posBlock1 with nonce := 7 }

/-- The chain `posChain` with its second block replaced by `renoncedBlock1`. -/
def renoncedChain : Blockchain :=
  { chain := posChain.chain.set 1 renoncedBlock1 }

/-- A chain of two blocks of `Exercice2.cpp` hashed with `plainDigest`. -/
def demoChain2 : Exercice2.Blockchain :=
  { chain :=
      [Exercice2.Block.new plainDigest 1000 0 "0"
        [{ from_ := "genesis", to_ := "network", amount := 0 }],
       Exercice2.Block.new plainDigest 1001 1
        (Exercice2.Block.new plainDigest 1000 0 "0"
          [{ from_ := "genesis", to_ := "network", amount := 0 }]).hash
        [{ from_ := "Diae", to_ := "Aymane", amount := 5 }]] }

/-- The last block of `demoChain2`. -/
def demoLast2 : Exercice2.Block :=
  Exercice2.Block.new plainDigest 1001 1
    (Exercice2.Block.new plainDigest 1000 0 "0"
      [{ from_ := "genesis", to_ := "network", amount := 0 }]).hash
    [{ from_ := "Diae", to_ := "Aymane", amount := 5 }]

/-- A block of `Exercice2.cpp` as constructed, hashed with `toyDigest`. -/
def demoBlock2 : Exercice2.Block :=
  Exercice2.Block.new toyDigest 1700000000000 1 "bbbb"
    [{ from_ := "Diae", to_ := "Aymane", amount := 5 }]

/-- The block that mining `demoBlock2` returns: the loop stops at nonce 9. -/
def demoMined2 : Exercice2.Block :=
  { demoBlock2 with nonce := 9, hash := "0000" }

end Exercice4

/-! ## Theorems -/

/-! ### Helper lemmas -/

/-- A string whose `substr(0, d)` is `d` copies of `c` has at least `d` characters and
starts with `d` copies of `c`. -/
theorem substr_zero_eq_fill (s : String) (d : Nat) (c : Char)
    (h : substr s 0 d = fill d c) :
    d ≤ s.length ∧ ∀ i, i < d → s.data[i]? = some c := by
  have hd : s.data.take d = List.replicate d c := by
    have := congrArg String.data h
    simpa [substr, fill] using this
  have hlen : d ≤ s.length := by
    have := congrArg List.length hd
    simpa using this
  refine ⟨hlen, fun i hi => ?_⟩
  have h1 : (s.data.take d)[i]? = s.data[i]? := by
    rw [List.getElem?_take]
    simp [hi]
  rw [← h1, hd]
  simp [hi]

/-- On a layer with an even number of elements the pairing loop reads no element out of
range and produces half as many elements. -/
theorem hashPairs_even (sha256 : String → String) :
    ∀ layer : List String, layer.length % 2 = 0 →
      ∃ next, hashPairs sha256 layer = some next ∧ next.length = layer.length / 2
  | [], _ => ⟨[], rfl, rfl⟩
  | [_], h => by simp at h
  | l :: r :: rest, h => by
    have h' : rest.length % 2 = 0 := by
      simp only [List.length_cons] at h
      omega
    obtain ⟨next, hn, hl⟩ := hashPairs_even sha256 rest h'
    refine ⟨sha256 (l ++ r) :: next, by simp [hashPairs, hn], ?_⟩
    simp only [List.length_cons, hl]
    omega

/-- Padding a layer that is not empty adds one element exactly when its length is odd. -/
theorem padLayer_length (layer : List String) (h : layer ≠ []) :
    (padLayer layer).length = layer.length + layer.length % 2 := by
  unfold padLayer
  by_cases hodd : layer.length % 2 = 0
  · simp [hodd]
  · have hsome : layer.getLast? = some (layer.getLast h) := List.getLast?_eq_getLast layer h
    have h1 : layer.length % 2 = 1 := by omega
    simp [h1, hsome]

/-- The folding loop returns on every layer that is not empty when it is given at least as
much fuel as the layer has elements. -/
theorem merkleLoop_isSome (sha256 : String → String) :
    ∀ (fuel : Nat) (layer : List String), layer ≠ [] → layer.length ≤ fuel →
      ∃ root, merkleLoop sha256 fuel layer = some root := by
  intro fuel
  induction fuel with
  | zero =>
    intro layer hne hlen
    have : layer.length ≠ 0 := fun e => hne (List.length_eq_zero.1 e)
    omega
  | succ n ih =>
    intro layer hne hlen
    simp only [merkleLoop]
    by_cases h1 : layer.length > 1
    · have hpad := padLayer_length layer hne
      obtain ⟨next, hn, hl⟩ := hashPairs_even sha256 (padLayer layer) (by omega)
      have hnext : next ≠ [] := by
        intro e
        rw [e] at hl
        simp only [List.length_nil] at hl
        omega
      obtain ⟨root, hroot⟩ := ih next hnext (by omega)
      exact ⟨root, by simp [h1, hn, hroot]⟩
    · cases layer with
      | nil => exact absurd rfl hne
      | cons x rest => exact ⟨x, by rw [if_neg h1]; rfl⟩

namespace Exercice4

theorem foldl_append_toString (txs : List Transaction) (init : String) :
    txs.foldl (fun ss t => ss ++ t.toString) init = init ++ serialize txs := by
  induction txs generalizing init with
  | nil => simp [serialize, String.join]
  | cons t rest ih =>
    rw [List.foldl_cons, ih, String.append_assoc]
    congr 1
    apply String.ext
    simp [serialize, String.join_eq]

theorem calculateHash_eq_specHash (sha256 : String → String) (b : Block) :
    b.calculateHash sha256 = b.specHash sha256 := by
  simp [Block.calculateHash, Block.hashInput, Block.specHash, foldl_append_toString]

/-- What one run of the mining loop guarantees about the block it returns. -/
theorem mineLoop_some (sha256 : String → String) (d : Nat) (target : String) (fuel : Nat) :
    ∀ b b', Block.mineLoop sha256 d target fuel b = some b' →
      substr b'.hash 0 d = target ∧ b'.hash = b'.calculateHash sha256 ∧
      b'.index = b.index ∧ b'.prevHash = b.prevHash ∧ b'.transactions = b.transactions ∧
      b'.merkleRootHash = b.merkleRootHash ∧ b'.timestamp = b.timestamp ∧
      b'.validator = b.validator ∧ b.nonce < b'.nonce := by
  induction fuel with
  | zero => intro b b' h; simp [Block.mineLoop] at h
  | succ n ih =>
    intro b b' h
    simp only [Block.mineLoop] at h
    split at h
    · obtain ⟨h1, h2, h3, h4, h5, h6, h7, h8, h9⟩ := ih _ _ h
      refine ⟨h1, h2, h3, h4, h5, h6, h7, h8, ?_⟩
      simp at h9
      omega
    · rename_i hne
      simp only [Option.some.injEq] at h
      subst h
      refine ⟨?_, ?_, rfl, rfl, rfl, rfl, rfl, rfl, ?_⟩
      · simpa using hne
      · simp [Block.calculateHash, Block.hashInput]
      · simp

/-- The result of the mining loop does not depend on the fuel once the fuel is enough. -/
theorem mineLoop_mono (sha256 : String → String) (d : Nat) (target : String) (fuel : Nat) :
    ∀ b b', Block.mineLoop sha256 d target fuel b = some b' →
      ∀ k, Block.mineLoop sha256 d target (fuel + k) b = some b' := by
  induction fuel with
  | zero => intro b b' h; simp [Block.mineLoop] at h
  | succ n ih =>
    intro b b' h k
    have hk : n + 1 + k = (n + k) + 1 := by omega
    rw [hk]
    simp only [Block.mineLoop] at h ⊢
    split at h
    · rename_i hne
      rw [if_pos hne]
      exact ih _ _ h k
    · rename_i hne
      rw [if_neg hne]
      exact h

end Exercice4

/-! ### Chain validation -/

namespace Exercice4

/-- The loop of `isValid` from index `i ≥ 1` on, with enough fuel, answers `true` exactly
when every block at an index `j ≥ i` is linked to its predecessor and carries its own
recomputed hash. -/
theorem isValidFrom_iff (sha256 : String → String) (c : Blockchain) :
    ∀ fuel i, c.chain.length + 1 ≤ fuel + i →
      (c.isValidFrom sha256 fuel i = true ↔
        ∀ j prev cur, i ≤ j → c.chain[j - 1]? = some prev → c.chain[j]? = some cur →
          cur.prevHash = prev.hash ∧ cur.hash = cur.calculateHash sha256) := by
  intro fuel
  induction fuel with
  | zero =>
    intro i hi
    simp only [Blockchain.isValidFrom, true_iff]
    intro j prev cur hij _ hcur
    have : j < c.chain.length := (List.getElem?_eq_some_iff.1 hcur).1
    omega
  | succ n ih =>
    intro i hi
    simp only [Blockchain.isValidFrom]
    by_cases h : i < c.chain.length
    · have hcur : c.chain[i]? = some (c.chain.get ⟨i, h⟩) := by
        simp [List.getElem?_eq_getElem h]
      have hprev : c.chain[i - 1]? = some (c.chain.get ⟨i - 1, by omega⟩) := by
        simp [List.getElem?_eq_getElem (show i - 1 < c.chain.length by omega)]
      rw [dif_pos h]
      by_cases h1 : (c.chain.get ⟨i, h⟩).prevHash = (c.chain.get ⟨i - 1, by omega⟩).hash
      · by_cases h2 : (c.chain.get ⟨i, h⟩).hash = (c.chain.get ⟨i, h⟩).calculateHash sha256
        · have hrec := ih (i + 1) (by omega)
          simp only [bne_iff_ne, ne_eq, h1, h2, not_true_eq_false, if_false]
          rw [hrec]
          constructor
          · intro hall j prev cur hij hp hc
            by_cases hji : j = i
            · subst hji
              rw [hprev] at hp
              rw [hcur] at hc
              cases hp
              cases hc
              exact ⟨h1, h2⟩
            · exact hall j prev cur (by omega) hp hc
          · intro hall j prev cur hij hp hc
            exact hall j prev cur (by omega) hp hc
        · simp only [bne_iff_ne, ne_eq, h1, h2, not_true_eq_false, not_false_eq_true, if_false,
            if_true]
          constructor
          · intro hf
            cases hf
          · intro hall
            exact absurd (hall i _ _ (le_refl i) hprev hcur).2 h2
      · simp only [bne_iff_ne, ne_eq, h1, not_false_eq_true, if_true]
        constructor
        · intro hf
          cases hf
        · intro hall
          exact absurd (hall i _ _ (le_refl i) hprev hcur).1 h1
    · rw [dif_neg h]
      simp only [true_iff]
      intro j prev cur hij _ hcur
      have : j < c.chain.length := (List.getElem?_eq_some_iff.1 hcur).1
      omega

/-- The function `isValid` in terms of the pairs of neighbouring blocks. -/
theorem isValid_iff (sha256 : String → String) (c : Blockchain) :
    c.isValid sha256 = true ↔
      ∀ j prev cur, 1 ≤ j → c.chain[j - 1]? = some prev → c.chain[j]? = some cur →
        cur.prevHash = prev.hash ∧ cur.hash = cur.calculateHash sha256 :=
  isValidFrom_iff sha256 c c.chain.length 1 (le_refl _)

end Exercice4

namespace Exercice4

/-- Appending a block that points at the last block and carries its own recomputed hash
keeps a valid chain valid. -/
theorem addBlock_isValid (sha256 : String → String) (c : Blockchain) (last b : Block)
    (hv : c.isValid sha256 = true) (hl : c.getLastBlock = some last)
    (hp : b.prevHash = last.hash) (hh : b.hash = b.calculateHash sha256) :
    (c.addBlock b).isValid sha256 = true := by
  rw [isValid_iff] at hv ⊢
  intro j prev cur hj hprev hcur
  simp only [Blockchain.addBlock] at hprev hcur
  rcases Nat.lt_trichotomy j c.chain.length with hlt | heq | hgt
  · rw [List.getElem?_append_left hlt] at hcur
    rw [List.getElem?_append_left (by omega)] at hprev
    exact hv j prev cur hj hprev hcur
  · subst heq
    rw [List.getElem?_append_right (le_refl _)] at hcur
    rw [List.getElem?_append_left (by omega)] at hprev
    simp only [Nat.sub_self, List.getElem?_cons_zero, Option.some.injEq] at hcur
    subst hcur
    have : some prev = some last := by
      rw [← hprev, ← hl, Blockchain.getLastBlock, List.getLast?_eq_getElem?]
    cases this
    exact ⟨hp, hh⟩
  · rw [List.getElem?_append_right (by omega)] at hcur
    have : j - c.chain.length = (j - c.chain.length - 1) + 1 := by omega
    rw [this] at hcur
    simp at hcur

/-- Replacing the block at a position `i ≥ 1` by one with the same stored `hash` and
`prevHash` keeps a valid chain valid exactly when the replacement still carries its own
recomputed hash. -/
theorem set_isValid_iff (sha256 : String → String) (c : Blockchain) (i : Nat)
    (h : i < c.chain.length) (b' : Block) (hv : c.isValid sha256 = true) (hi : 1 ≤ i)
    (hh : b'.hash = (c.chain.get ⟨i, h⟩).hash)
    (hp : b'.prevHash = (c.chain.get ⟨i, h⟩).prevHash) :
    Blockchain.isValid sha256 { chain := c.chain.set i b' } = true ↔
      b'.hash = b'.calculateHash sha256 := by
  have hget : c.chain[i]? = some (c.chain.get ⟨i, h⟩) := by
    simp [List.getElem?_eq_getElem h]
  rw [isValid_iff] at hv ⊢
  constructor
  · intro hall
    have hprev : (c.chain.set i b')[i - 1]? = c.chain[i - 1]? :=
      List.getElem?_set_ne (by omega)
    have hprev' : c.chain[i - 1]? = some (c.chain.get ⟨i - 1, by omega⟩) := by
      simp [List.getElem?_eq_getElem (show i - 1 < c.chain.length by omega)]
    exact (hall i _ b' hi (hprev.trans hprev') (List.getElem?_set_self h)).2
  · intro hb j prev cur hj hprev hcur
    simp only at hprev hcur
    by_cases hji : j = i
    · subst hji
      rw [List.getElem?_set_self h] at hcur
      rw [List.getElem?_set_ne (by omega)] at hprev
      cases hcur
      have := hv j prev _ hj hprev hget
      exact ⟨hp.trans this.1, hb⟩
    · rw [List.getElem?_set_ne (fun e => hji e.symm)] at hcur
      by_cases hji' : j - 1 = i
      · rw [hji', List.getElem?_set_self h] at hprev
        cases hprev
        have := hv j (c.chain.get ⟨i, h⟩) cur hj (by rw [hji']; exact hget) hcur
        exact ⟨this.1.trans hh.symm, this.2⟩
      · rw [List.getElem?_set_ne (fun e => hji' e.symm)] at hprev
        exact hv j prev cur hj hprev hcur

end Exercice4

namespace Exercice2

/-- What one run of the mining loop of `Exercice2.cpp` guarantees about the block it
returns. -/
theorem mineLoop2_some (sha256 : String → String) (d : Nat) (target : String) (fuel : Nat) :
    ∀ b b', Block.mineLoop sha256 d target fuel b = some b' →
      substr b'.hash 0 d = target ∧ b'.hash = b'.calculateHash sha256 := by
  induction fuel with
  | zero => intro b b' h; simp [Block.mineLoop] at h
  | succ n ih =>
    intro b b' h
    simp only [Block.mineLoop] at h
    split at h
    · exact ih _ _ h
    · rename_i hne
      simp only [Option.some.injEq] at h
      subst h
      refine ⟨?_, ?_⟩
      · simpa using hne
      · simp [Block.calculateHash, Block.hashInput]

/-- The loop of `isValid` of `Exercice2.cpp` from index `i ≥ 1` on, with enough fuel. -/
theorem isValidFrom2_iff (sha256 : String → String) (c : Blockchain) :
    ∀ fuel i, c.chain.length + 1 ≤ fuel + i →
      (c.isValidFrom sha256 fuel i = true ↔
        ∀ j prev cur, i ≤ j → c.chain[j - 1]? = some prev → c.chain[j]? = some cur →
          cur.prevHash = prev.hash ∧ cur.hash = cur.calculateHash sha256) := by
  intro fuel
  induction fuel with
  | zero =>
    intro i hi
    simp only [Blockchain.isValidFrom, true_iff]
    intro j prev cur hij _ hcur
    have : j < c.chain.length := (List.getElem?_eq_some_iff.1 hcur).1
    omega
  | succ n ih =>
    intro i hi
    simp only [Blockchain.isValidFrom]
    by_cases h : i < c.chain.length
    · have hcur : c.chain[i]? = some (c.chain.get ⟨i, h⟩) := by
        simp [List.getElem?_eq_getElem h]
      have hprev : c.chain[i - 1]? = some (c.chain.get ⟨i - 1, by omega⟩) := by
        simp [List.getElem?_eq_getElem (show i - 1 < c.chain.length by omega)]
      rw [dif_pos h]
      by_cases h1 : (c.chain.get ⟨i, h⟩).prevHash = (c.chain.get ⟨i - 1, by omega⟩).hash
      · by_cases h2 : (c.chain.get ⟨i, h⟩).hash = (c.chain.get ⟨i, h⟩).calculateHash sha256
        · have hrec := ih (i + 1) (by omega)
          simp only [bne_iff_ne, ne_eq, h1, h2, not_true_eq_false, if_false]
          rw [hrec]
          constructor
          · intro hall j prev cur hij hp hc
            by_cases hji : j = i
            · subst hji
              rw [hprev] at hp
              rw [hcur] at hc
              cases hp
              cases hc
              exact ⟨h1, h2⟩
            · exact hall j prev cur (by omega) hp hc
          · intro hall j prev cur hij hp hc
            exact hall j prev cur (by omega) hp hc
        · simp only [bne_iff_ne, ne_eq, h1, h2, not_true_eq_false, not_false_eq_true, if_false,
            if_true]
          constructor
          · intro hf
            cases hf
          · intro hall
            exact absurd (hall i _ _ (le_refl i) hprev hcur).2 h2
      · simp only [bne_iff_ne, ne_eq, h1, not_false_eq_true, if_true]
        constructor
        · intro hf
          cases hf
        · intro hall
          exact absurd (hall i _ _ (le_refl i) hprev hcur).1 h1
    · rw [dif_neg h]
      simp only [true_iff]
      intro j prev cur hij _ hcur
      have : j < c.chain.length := (List.getElem?_eq_some_iff.1 hcur).1
      omega

end Exercice2

/-! ### The Merkle root -/

/-- C1: for three transactions `a`, `b`, `c` and every digest, the Merkle root is
`digest(digest(digest(sa) + digest(sb)) + digest(digest(sc) + digest(sc)))`, the
concatenations being left then right and the last element of the odd layer being the one
duplicated; the same holds for the string version of `Exercice1.cpp`. -/
theorem merkleRoot_three (sha256 : String → String) (a b c : Exercice4.Transaction)
    (sa sb sc : String) :
    Exercice4.merkleRoot sha256 [a, b, c]
        = sha256 (sha256 (sha256 a.toString ++ sha256 b.toString)
            ++ sha256 (sha256 c.toString ++ sha256 c.toString))
      ∧ Exercice1.merkleRoot sha256 [sa, sb, sc]
        = sha256 (sha256 (sha256 sa ++ sha256 sb) ++ sha256 (sha256 sc ++ sha256 sc)) := by
  constructor <;>
    simp [Exercice4.merkleRoot, Exercice1.merkleRoot, merkleLoop, padLayer, hashPairs]

/-! ### Proof of work on one block -/

/-- C2: for every block and difficulty `d`, if `mineBlock(d)` returns then the stored hash
has at least `d` characters and its first `d` characters are all `'0'`; this holds for the
block of `Exercice4.cpp` and for the block of `Exercice2.cpp`. -/
theorem mineBlock_hash_zeros (sha256 : String → String) (d fuel : Nat)
    (b b' : Exercice4.Block) (b2 b2' : Exercice2.Block) :
    (b.mineBlock sha256 d fuel = some b' →
        d ≤ b'.hash.length ∧ ∀ i, i < d → b'.hash.data[i]? = some '0') ∧
      (b2.mineBlock sha256 d fuel = some b2' →
        d ≤ b2'.hash.length ∧ ∀ i, i < d → b2'.hash.data[i]? = some '0') :=
  ⟨fun h => substr_zero_eq_fill b'.hash d '0'
      (Exercice4.mineLoop_some sha256 d (fill d '0') fuel b b' h).1,
    fun h => substr_zero_eq_fill b2'.hash d '0'
      (Exercice2.mineLoop2_some sha256 d (fill d '0') fuel b2 b2' h).1⟩

/-- Witness of C2: mining `demoBlock` and `demoBlock2` at difficulty 4 with 9 units of
fuel returns with hash `"0000"`. -/
theorem mineBlock_hash_zeros_witness :
    (Exercice4.demoBlock.mineBlock toyDigest 4 9 = some Exercice4.demoMined ∧
        Exercice4.demoBlock2.mineBlock toyDigest 4 9 = some Exercice4.demoMined2) ∧
      (4 ≤ Exercice4.demoMined.hash.length ∧
        ∀ i, i < 4 → Exercice4.demoMined.hash.data[i]? = some '0') ∧
      (4 ≤ Exercice4.demoMined2.hash.length ∧
        ∀ i, i < 4 → Exercice4.demoMined2.hash.data[i]? = some '0') :=
  ⟨by decide,
    (mineBlock_hash_zeros toyDigest 4 9 Exercice4.demoBlock Exercice4.demoMined
      Exercice4.demoBlock2 Exercice4.demoMined2).1 (by decide),
    (mineBlock_hash_zeros toyDigest 4 9 Exercice4.demoBlock Exercice4.demoMined
      Exercice4.demoBlock2 Exercice4.demoMined2).2 (by decide)⟩

/-- C3 fails as stated: on a freshly constructed block (nonce 0) `mineBlock(0)` returns
with nonce 1, not 0. -/
theorem mineBlock_zero_nonce_counterexample :
    Exercice4.demoBlock.nonce = 0 ∧
      (Exercice4.demoBlock.mineBlock toyDigest 0 1).map (fun b => b.nonce) = some 1 := by
  decide

/-- C3 as amended: on every freshly constructed block (nonce 0), `mineBlock(0)` returns
after exactly one iteration of its `do .. while` loop (no fuel gives no result, any
positive fuel gives the same result): the nonce is 1 after the call and the hash is the
digest recomputed with nonce 1, accepted because every hash passes the empty-prefix test. -/
theorem mineBlock_zero_fresh (sha256 : String → String) (now idx : Int) (prev : String)
    (txs : List Exercice4.Transaction) (fuel : Nat) :
    (Exercice4.Block.new sha256 now idx prev txs).nonce = 0 ∧
      (Exercice4.Block.new sha256 now idx prev txs).mineBlock sha256 0 0 = none ∧
      (Exercice4.Block.new sha256 now idx prev txs).mineBlock sha256 0 (fuel + 1)
        = some { Exercice4.Block.new sha256 now idx prev txs with
            nonce := 1
            hash := Exercice4.Block.calculateHash sha256
              { Exercice4.Block.new sha256 now idx prev txs with nonce := 1 } } := by
  refine ⟨rfl, rfl, ?_⟩
  simp [Exercice4.Block.mineBlock, Exercice4.Block.mineLoop, substr, fill,
    Exercice4.Block.new, Exercice4.Block.calculateHash, Exercice4.Block.hashInput]

/-! ### Chains -/

/-- C4 fails as stated: on the valid three-block chain `posChain`, hashed with a digest
that has no collisions, changing the amount of the genesis transaction from 0 to 1, or the
amount of the first transaction of the second block from `5.0` to `5.0009765625`, each time
keeping the stored `hash` and `prevHash`, leaves `isValid()` true. -/
theorem tamper_undetected_counterexample :
    Exercice4.posChain.isValid plainDigest = true ∧
      Exercice4.posChain.chain = [Exercice4.posGenesis, Exercice4.posBlock1,
        Exercice4.posBlock2] ∧
      Exercice4.tamperedGenesis.transactions ≠ Exercice4.posGenesis.transactions ∧
      Exercice4.tamperedGenesis.hash = Exercice4.posGenesis.hash ∧
      Exercice4.tamperedGenesis.prevHash = Exercice4.posGenesis.prevHash ∧
      Exercice4.Blockchain.isValid plainDigest
        { chain := Exercice4.posChain.chain.set 0 Exercice4.tamperedGenesis } = true ∧
      Exercice4.tamperedBlock1.transactions ≠ Exercice4.posBlock1.transactions ∧
      Exercice4.tamperedBlock1.hash = Exercice4.posBlock1.hash ∧
      Exercice4.tamperedBlock1.prevHash = Exercice4.posBlock1.prevHash ∧
      Exercice4.Blockchain.isValid plainDigest
        { chain := Exercice4.posChain.chain.set 1 Exercice4.tamperedBlock1 } = true := by
  decide

/-- C4 as amended: on a chain on which `isValid()` returns true, replacing the block at a
position `i ≥ 1` by a block with the same stored `hash` and `prevHash` makes `isValid()`
return false exactly when the digest recomputed from the fields of the replacement differs
from the stored hash; this is the case whenever the digest is injective and the text that
`calculateHash` hashes has changed. -/
theorem tamper_detected_iff (sha256 : String → String) (c : Exercice4.Blockchain) (i : Nat)
    (h : i < c.chain.length) (b' : Exercice4.Block) (hv : c.isValid sha256 = true)
    (hi : 1 ≤ i) (hh : b'.hash = (c.chain.get ⟨i, h⟩).hash)
    (hp : b'.prevHash = (c.chain.get ⟨i, h⟩).prevHash) :
    (Exercice4.Blockchain.isValid sha256 { chain := c.chain.set i b' } = false ↔
        b'.calculateHash sha256 ≠ b'.hash) ∧
      (Function.Injective sha256 → b'.hashInput ≠ (c.chain.get ⟨i, h⟩).hashInput →
        Exercice4.Blockchain.isValid sha256 { chain := c.chain.set i b' } = false) := by
  have key := Exercice4.set_isValid_iff sha256 c i h b' hv hi hh hp
  have hiff : Exercice4.Blockchain.isValid sha256 { chain := c.chain.set i b' } = false ↔
      b'.calculateHash sha256 ≠ b'.hash := by
    rw [← Bool.not_eq_true, key]
    exact ⟨fun hne e => hne e.symm, fun hne e => hne e.symm⟩
  refine ⟨hiff, fun hinj hne => hiff.2 ?_⟩
  have hold : (c.chain.get ⟨i, h⟩).hash = (c.chain.get ⟨i, h⟩).calculateHash sha256 := by
    have hget : c.chain[i]? = some (c.chain.get ⟨i, h⟩) := by
      simp [List.getElem?_eq_getElem h]
    have hprev : c.chain[i - 1]? = some (c.chain.get ⟨i - 1, by omega⟩) := by
      simp [List.getElem?_eq_getElem (show i - 1 < c.chain.length by omega)]
    exact ((Exercice4.isValid_iff sha256 c).1 hv i _ _ hi hprev hget).2
  rw [hh, hold]
  intro e
  exact hne (hinj e)

/-- Witness of C4 as amended: changing the nonce of the second block of `posChain` from 0
to 7 is detected. -/
theorem tamper_detected_iff_witness :
    (Exercice4.posChain.isValid plainDigest = true ∧ 1 ≤ 1 ∧
        Exercice4.renoncedBlock1.hash = Exercice4.posBlock1.hash ∧
        Exercice4.renoncedBlock1.prevHash = Exercice4.posBlock1.prevHash ∧
        Exercice4.renoncedBlock1.calculateHash plainDigest
          ≠ Exercice4.renoncedBlock1.hash) ∧
      Exercice4.Blockchain.isValid plainDigest
        { chain := Exercice4.posChain.chain.set 1 Exercice4.renoncedBlock1 } = false :=
  ⟨by decide,
    (tamper_detected_iff plainDigest Exercice4.posChain 1 (by decide)
      Exercice4.renoncedBlock1 (by decide) (by decide) (by decide) (by decide)).1.2
      (by decide)⟩

/-- C5: a freshly constructed `Blockchain` contains exactly one block; that block has
index 0, `prevHash` equal to the sentinel `"0"` and a single transaction with sender
`"genesis"`, receiver `"network"` and amount 0 (its id is `"0"`); and `isValid()` returns
true on it. -/
theorem genesis_chain (sha256 : String → String) (now : Int) :
    (Exercice4.Blockchain.new sha256 now).chain.length = 1 ∧
      (∃ g, (Exercice4.Blockchain.new sha256 now).chain = [g] ∧ g.index = 0 ∧
        g.prevHash = "0" ∧
        g.transactions
          = [{ id := "0", sender := "genesis", receiver := "network", amount := 0 }]) ∧
      (Exercice4.Blockchain.new sha256 now).isValid sha256 = true :=
  ⟨rfl, ⟨_, rfl, rfl, rfl, rfl⟩, rfl⟩

/-- C6: on a chain on which `isValid()` returns true, a block constructed with `prevHash`
equal to `getLastBlock().hash` and then finalized by `mineBlock(d)` (when it returns) or by
`validatePoS(name)` gives, once appended by `addBlock`, a chain on which `isValid()` returns
true; in particular on a fresh chain with the three-transaction block of `main` mined at
difficulty 4. -/
theorem addBlock_valid (sha256 : String → String) (c : Exercice4.Blockchain)
    (last : Exercice4.Block) (now idx : Int) (txs : List Exercice4.Transaction)
    (hv : c.isValid sha256 = true) (hl : c.getLastBlock = some last) :
    (∀ d fuel b', (Exercice4.Block.new sha256 now idx last.hash txs).mineBlock sha256 d fuel
        = some b' → (c.addBlock b').isValid sha256 = true) ∧
      (∀ name, (c.addBlock
        ((Exercice4.Block.new sha256 now idx last.hash txs).validatePoS sha256 name)).isValid
          sha256 = true) ∧
      (∀ now0 fuel blk b', Exercice4.mainBlock sha256 now
          (Exercice4.Blockchain.new sha256 now0) = some blk →
        blk.mineBlock sha256 4 fuel = some b' →
        ((Exercice4.Blockchain.new sha256 now0).addBlock b').isValid sha256 = true) := by
  refine ⟨?_, ?_, ?_⟩
  · intro d fuel b' hm
    obtain ⟨-, h2, -, h4, -⟩ := Exercice4.mineLoop_some sha256 d (fill d '0') fuel _ b' hm
    exact Exercice4.addBlock_isValid sha256 c last b' hv hl h4 h2
  · intro name
    exact Exercice4.addBlock_isValid sha256 c last _ hv hl rfl rfl
  · intro now0 fuel blk b' hblk hm
    obtain ⟨-, h2, -, h4, -⟩ := Exercice4.mineLoop_some sha256 4 (fill 4 '0') fuel _ b' hm
    simp only [Exercice4.mainBlock, Exercice4.Blockchain.getLastBlock,
      Exercice4.Blockchain.new, List.nil_append, List.getLast?_singleton, Option.map_some',
      Option.some.injEq] at hblk
    subst hblk
    exact Exercice4.addBlock_isValid sha256 _ _ b' rfl rfl h4 h2

/-- Witness of C6: the fresh chain built with `toyDigest` and the three-transaction block
of `main`, mined at difficulty 4 or validated by `"Validator_A"`. -/
theorem addBlock_valid_witness :
    ((Exercice4.Blockchain.new toyDigest 1700000000000).isValid toyDigest = true ∧
        (Exercice4.Blockchain.new toyDigest 1700000000000).getLastBlock
          = some Exercice4.demoGenesis ∧
        (Exercice4.Block.new toyDigest 1700000000039 1 Exercice4.demoGenesis.hash
          Exercice4.mainTxs).mineBlock toyDigest 4 5 = some Exercice4.demoMined) ∧
      ((Exercice4.Blockchain.new toyDigest 1700000000000).addBlock
        Exercice4.demoMined).isValid toyDigest = true :=
  ⟨by decide,
    (addBlock_valid toyDigest (Exercice4.Blockchain.new toyDigest 1700000000000)
      Exercice4.demoGenesis 1700000000039 1 Exercice4.mainTxs (by decide) (by decide)).1
      4 5 Exercice4.demoMined (by decide)⟩

/-- C7: `isValid()` returns true if and only if for every `i` with `1 ≤ i < chain length`,
`chain[i].prevHash == chain[i-1].hash` and `chain[i].hash == calculateHash(chain[i])`; when
the loop reaches an index at which the link or the stored hash disagrees it returns false
at once, whatever follows; the equivalence also holds for `Exercice2.cpp`. -/
theorem isValid_iff_links (sha256 : String → String) (c : Exercice4.Blockchain)
    (c2 : Exercice2.Blockchain) :
    (c.isValid sha256 = true ↔
        ∀ i (h : i < c.chain.length), 1 ≤ i →
          (c.chain.get ⟨i, h⟩).prevHash = (c.chain.get ⟨i - 1, by omega⟩).hash ∧
          (c.chain.get ⟨i, h⟩).hash = (c.chain.get ⟨i, h⟩).calculateHash sha256) ∧
      (∀ i (h : i < c.chain.length), 1 ≤ i →
        ¬ ((c.chain.get ⟨i, h⟩).prevHash = (c.chain.get ⟨i - 1, by omega⟩).hash ∧
          (c.chain.get ⟨i, h⟩).hash = (c.chain.get ⟨i, h⟩).calculateHash sha256) →
        c.isValid sha256 = false ∧ ∀ fuel, c.isValidFrom sha256 (fuel + 1) i = false) ∧
      (c2.isValid sha256 = true ↔
        ∀ i (h : i < c2.chain.length), 1 ≤ i →
          (c2.chain.get ⟨i, h⟩).prevHash = (c2.chain.get ⟨i - 1, by omega⟩).hash ∧
          (c2.chain.get ⟨i, h⟩).hash = (c2.chain.get ⟨i, h⟩).calculateHash sha256) := by
  have h4 : c.isValid sha256 = true ↔
      ∀ i (h : i < c.chain.length), 1 ≤ i →
        (c.chain.get ⟨i, h⟩).prevHash = (c.chain.get ⟨i - 1, by omega⟩).hash ∧
        (c.chain.get ⟨i, h⟩).hash = (c.chain.get ⟨i, h⟩).calculateHash sha256 := by
    rw [Exercice4.isValid_iff]
    constructor
    · intro hall i h hi
      exact hall i _ _ hi
        (by simp [List.getElem?_eq_getElem (show i - 1 < c.chain.length by omega)])
        (by simp [List.getElem?_eq_getElem h])
    · intro hall j prev cur hj hp hc
      obtain ⟨hlt, hcur⟩ := List.getElem?_eq_some_iff.1 hc
      obtain ⟨hlt', hprev⟩ := List.getElem?_eq_some_iff.1 hp
      have := hall j hlt hj
      simp only [List.get_eq_getElem, hcur, hprev] at this
      exact this
  refine ⟨h4, ?_, ?_⟩
  · intro i h hi hbad
    refine ⟨?_, fun fuel => ?_⟩
    · rw [← Bool.not_eq_true, h4]
      intro hall
      exact hbad (hall i h hi)
    · simp only [Exercice4.Blockchain.isValidFrom, dif_pos h]
      by_cases h1 : (c.chain.get ⟨i, h⟩).prevHash = (c.chain.get ⟨i - 1, by omega⟩).hash
      · have h2 : ¬ (c.chain.get ⟨i, h⟩).hash = (c.chain.get ⟨i, h⟩).calculateHash sha256 :=
          fun e => hbad ⟨h1, e⟩
        simp only [bne_iff_ne, ne_eq, h1, h2, not_true_eq_false, not_false_eq_true, if_false,
          if_true]
      · simp only [bne_iff_ne, ne_eq, h1, not_false_eq_true, if_true]
  · unfold Exercice2.Blockchain.isValid
    rw [Exercice2.isValidFrom2_iff sha256 c2 c2.chain.length 1 (le_refl _)]
    constructor
    · intro hall i h hi
      exact hall i _ _ hi
        (by simp [List.getElem?_eq_getElem (show i - 1 < c2.chain.length by omega)])
        (by simp [List.getElem?_eq_getElem h])
    · intro hall j prev cur hj hp hc
      obtain ⟨hlt, hcur⟩ := List.getElem?_eq_some_iff.1 hc
      obtain ⟨hlt', hprev⟩ := List.getElem?_eq_some_iff.1 hp
      have := hall j hlt hj
      simp only [List.get_eq_getElem, hcur, hprev] at this
      exact this

/-- Witness of C7: in `renoncedChain` the stored hash of the block at index 1 disagrees
with its recomputation, and the loop returns false there. -/
theorem isValid_iff_links_witness :
    (1 ≤ 1 ∧ Exercice4.renoncedBlock1.hash
        ≠ Exercice4.renoncedBlock1.calculateHash plainDigest) ∧
      (Exercice4.renoncedChain.isValid plainDigest = false ∧
        ∀ fuel, Exercice4.renoncedChain.isValidFrom plainDigest (fuel + 1) 1 = false) :=
  ⟨by decide,
    (isValid_iff_links plainDigest Exercice4.renoncedChain Exercice4.demoChain2).2.1 1
      (by decide) (by decide) (by decide)⟩

/-! ### The stored hash and the frame of the two finalizations -/

/-- C8: the stored hash equals `H(index ∥ prevHash ∥ merkleRoot ∥ timestamp ∥ nonce ∥
validator ∥ serialize(transactions))` on the current fields right after construction (when
the `merkleRoot` field is the Merkle root of the transactions), after every `mineBlock(d)`
call that returns and after every `validatePoS(name)` call (whatever the block was before
the call, so the invariant is in particular preserved). -/
theorem hash_invariant (sha256 : String → String) (now idx : Int) (prev : String)
    (txs : List Exercice4.Transaction) (d fuel : Nat) (b b' : Exercice4.Block)
    (name : String) (h : b.mineBlock sha256 d fuel = some b') :
    ((Exercice4.Block.new sha256 now idx prev txs).merkleRootHash
          = Exercice4.merkleRoot sha256 txs ∧
        (Exercice4.Block.new sha256 now idx prev txs).hash
          = (Exercice4.Block.new sha256 now idx prev txs).specHash sha256) ∧
      b'.hash = b'.specHash sha256 ∧
      (b.validatePoS sha256 name).hash = (b.validatePoS sha256 name).specHash sha256 := by
  refine ⟨⟨rfl, ?_⟩, ?_, ?_⟩
  · rw [← Exercice4.calculateHash_eq_specHash]
    rfl
  · rw [← Exercice4.calculateHash_eq_specHash]
    exact (Exercice4.mineLoop_some sha256 d (fill d '0') fuel b b' h).2.1
  · rw [← Exercice4.calculateHash_eq_specHash]
    rfl

/-- Witness of C8: the three parts on `demoBlock`, mined at difficulty 4. -/
theorem hash_invariant_witness :
    Exercice4.demoBlock.mineBlock toyDigest 4 5 = some Exercice4.demoMined ∧
      (((Exercice4.Block.new toyDigest 1700000000039 1 "bbbb"
              Exercice4.mainTxs).merkleRootHash
            = Exercice4.merkleRoot toyDigest Exercice4.mainTxs ∧
          (Exercice4.Block.new toyDigest 1700000000039 1 "bbbb" Exercice4.mainTxs).hash
            = (Exercice4.Block.new toyDigest 1700000000039 1 "bbbb"
                Exercice4.mainTxs).specHash toyDigest) ∧
        Exercice4.demoMined.hash = Exercice4.demoMined.specHash toyDigest ∧
        (Exercice4.demoBlock.validatePoS toyDigest "Validator_A").hash
          = (Exercice4.demoBlock.validatePoS toyDigest "Validator_A").specHash toyDigest) :=
  ⟨by decide, hash_invariant toyDigest 1700000000039 1 "bbbb" Exercice4.mainTxs 4 5
    Exercice4.demoBlock Exercice4.demoMined "Validator_A" (by decide)⟩

/-- C9: when `mineBlock(d)` returns, `index`, `prevHash`, `transactions`, `merkleRoot`,
`timestamp` and `validator` have their values from before the call: the returned block is
the old one with only `nonce` and `hash` replaced. -/
theorem mineBlock_frame (sha256 : String → String) (d fuel : Nat)
    (b b' : Exercice4.Block) (h : b.mineBlock sha256 d fuel = some b') :
    b'.index = b.index ∧ b'.prevHash = b.prevHash ∧ b'.transactions = b.transactions ∧
      b'.merkleRootHash = b.merkleRootHash ∧ b'.timestamp = b.timestamp ∧
      b'.validator = b.validator ∧ b' = { b with nonce := b'.nonce, hash := b'.hash } := by
  obtain ⟨-, -, h3, h4, h5, h6, h7, h8, -⟩ :=
    Exercice4.mineLoop_some sha256 d (fill d '0') fuel b b' h
  refine ⟨h3, h4, h5, h6, h7, h8, ?_⟩
  cases b
  cases b'
  simp_all

/-- Witness of C9: mining `demoBlock` at difficulty 4. -/
theorem mineBlock_frame_witness :
    Exercice4.demoBlock.mineBlock toyDigest 4 5 = some Exercice4.demoMined ∧
      (Exercice4.demoMined.index = Exercice4.demoBlock.index ∧
        Exercice4.demoMined.prevHash = Exercice4.demoBlock.prevHash ∧
        Exercice4.demoMined.transactions = Exercice4.demoBlock.transactions ∧
        Exercice4.demoMined.merkleRootHash = Exercice4.demoBlock.merkleRootHash ∧
        Exercice4.demoMined.timestamp = Exercice4.demoBlock.timestamp ∧
        Exercice4.demoMined.validator = Exercice4.demoBlock.validator ∧
        Exercice4.demoMined = { Exercice4.demoBlock with
          nonce := Exercice4.demoMined.nonce, hash := Exercice4.demoMined.hash }) :=
  ⟨by decide, mineBlock_frame toyDigest 4 5 Exercice4.demoBlock Exercice4.demoMined
    (by decide)⟩

/-- C10: `validatePoS(name)` sets `validator` to `name`, sets `hash` to the digest
recomputed from the updated fields, and leaves `index`, `prevHash`, `transactions`,
`merkleRoot`, `timestamp` and `nonce` unchanged; the same holds for the block of
`Exercice3.cpp`, which has no `merkleRoot` field. -/
theorem validatePoS_effect (sha256 : String → String) (name : String) (b : Exercice4.Block)
    (b3 : Exercice3.Block) :
    ((b.validatePoS sha256 name).validator = name ∧
      (b.validatePoS sha256 name).hash
        = Exercice4.Block.calculateHash sha256 { b with validator := name } ∧
      (b.validatePoS sha256 name).hash = (b.validatePoS sha256 name).calculateHash sha256 ∧
      (b.validatePoS sha256 name).index = b.index ∧
      (b.validatePoS sha256 name).prevHash = b.prevHash ∧
      (b.validatePoS sha256 name).transactions = b.transactions ∧
      (b.validatePoS sha256 name).merkleRootHash = b.merkleRootHash ∧
      (b.validatePoS sha256 name).timestamp = b.timestamp ∧
      (b.validatePoS sha256 name).nonce = b.nonce) ∧
    ((b3.validatePoS sha256 name).validator = name ∧
      (b3.validatePoS sha256 name).hash
        = Exercice3.Block.calculateHash sha256 { b3 with validator := name } ∧
      (b3.validatePoS sha256 name).hash = (b3.validatePoS sha256 name).calculateHash sha256 ∧
      (b3.validatePoS sha256 name).index = b3.index ∧
      (b3.validatePoS sha256 name).prevHash = b3.prevHash ∧
      (b3.validatePoS sha256 name).transactions = b3.transactions ∧
      (b3.validatePoS sha256 name).timestamp = b3.timestamp ∧
      (b3.validatePoS sha256 name).nonce = b3.nonce) :=
  ⟨⟨rfl, rfl, rfl, rfl, rfl, rfl, rfl, rfl, rfl⟩, ⟨rfl, rfl, rfl, rfl, rfl, rfl, rfl, rfl⟩⟩

/-! ### Validator selection: helper lemmas -/

section SelectionLemmas

variable {α : Type} [Add α] [LE α] [DecidableRel (α := α) (· ≤ ·)]

/-- A name returned from inside the loop is the name of an entry. -/
theorem selectWalk_mem (r : α) :
    ∀ (l : List (String × α)) (s : α) (name : String),
      selectWalk r l s = some name → ∃ v, v ∈ l ∧ v.1 = name := by
  intro l
  induction l with
  | nil => intro s name h; simp [selectWalk] at h
  | cons v rest ih =>
    intro s name h
    simp only [selectWalk] at h
    split at h
    · simp only [Option.some.injEq] at h
      exact ⟨v, List.mem_cons_self _ _, h⟩
    · obtain ⟨w, hw, hn⟩ := ih _ _ h
      exact ⟨w, List.mem_cons_of_mem _ hw, hn⟩

/-- The loop returns from inside when the draw is at most the sum that the same additions
reach at the last entry. -/
theorem selectWalk_some_of_le (r : α) :
    ∀ (l : List (String × α)) (s : α), l ≠ [] →
      r ≤ l.foldl (fun total v => total + v.2) s → ∃ name, selectWalk r l s = some name := by
  intro l
  induction l with
  | nil => intro s h; exact absurd rfl h
  | cons v rest ih =>
    intro s _ hr
    simp only [selectWalk]
    by_cases h : r ≤ s + v.2
    · exact ⟨v.1, by rw [if_pos h]⟩
    · rw [if_neg h]
      cases rest with
      | nil => exact absurd hr h
      | cons w rest' => exact ih (s + v.2) (List.cons_ne_nil _ _) hr

/-- The loop with a counter returns the position `i + k` exactly when the entry `k` of the
remaining list is the first at which the draw is at most the running sum. -/
theorem selectWalkIndex_some_iff (r : α) :
    ∀ (l : List (String × α)) (s : α) (i j : Nat),
      selectWalkIndex r l s i = some j ↔
        ∃ k, k < l.length ∧ j = i + k ∧
          r ≤ (l.take (k + 1)).foldl (fun total v => total + v.2) s ∧
          ∀ m, m < k → ¬ r ≤ (l.take (m + 1)).foldl (fun total v => total + v.2) s := by
  intro l
  induction l with
  | nil =>
    intro s i j
    simp [selectWalkIndex]
  | cons v rest ih =>
    intro s i j
    simp only [selectWalkIndex]
    by_cases h : r ≤ s + v.2
    · rw [if_pos h]
      constructor
      · intro e
        simp only [Option.some.injEq] at e
        refine ⟨0, by simp, by omega, by simpa using h, fun m hm => absurd hm (Nat.not_lt_zero m)⟩
      · rintro ⟨k, _, hj, _, hfirst⟩
        cases k with
        | zero => simp [hj]
        | succ k' => exact absurd (by simpa using h) (hfirst 0 (Nat.succ_pos k'))
    · rw [if_neg h, ih]
      constructor
      · rintro ⟨k, hk, hj, hle, hfirst⟩
        refine ⟨k + 1, by simpa using hk, by omega, by simpa using hle, fun m hm => ?_⟩
        cases m with
        | zero => simpa using h
        | succ m' => simpa using hfirst m' (by omega)
      · rintro ⟨k, hk, hj, hle, hfirst⟩
        cases k with
        | zero => exact absurd (by simpa using hle) h
        | succ k' =>
          refine ⟨k', by simpa using hk, by omega, by simpa using hle, fun m hm => ?_⟩
          simpa using hfirst (m + 1) (by omega)

/-- The loop with a counter ends without a `return` exactly when no entry satisfies the
test. -/
theorem selectWalkIndex_none_iff (r : α) :
    ∀ (l : List (String × α)) (s : α) (i : Nat),
      selectWalkIndex r l s i = none ↔
        ∀ m, m < l.length → ¬ r ≤ (l.take (m + 1)).foldl (fun total v => total + v.2) s := by
  intro l
  induction l with
  | nil =>
    intro s i
    simp [selectWalkIndex]
  | cons v rest ih =>
    intro s i
    simp only [selectWalkIndex]
    by_cases h : r ≤ s + v.2
    · rw [if_pos h]
      constructor
      · intro e
        cases e
      · intro hall
        exact absurd (by simpa using h) (hall 0 (by simp))
    · rw [if_neg h, ih]
      constructor
      · intro hall m hm
        cases m with
        | zero => simpa using h
        | succ m' => simpa using hall m' (by simpa using hm)
      · intro hall m hm
        simpa using hall (m + 1) (by simpa using hm)

/-- The name returned by the loop is the name of the entry at the position returned by the
loop with a counter. -/
theorem selectWalk_eq_index (r : α) :
    ∀ (l : List (String × α)) (s : α) (i : Nat),
      selectWalk r l s
        = (selectWalkIndex r l s i).bind (fun j => (l[j - i]?).map (fun v => v.1)) := by
  intro l
  induction l with
  | nil => intro s i; rfl
  | cons v rest ih =>
    intro s i
    simp only [selectWalk, selectWalkIndex]
    by_cases h : r ≤ s + v.2
    · simp [h]
    · rw [if_neg h, if_neg h, ih (s + v.2) (i + 1)]
      cases hw : selectWalkIndex r rest (s + v.2) (i + 1) with
      | none => rfl
      | some j =>
        obtain ⟨k, _, hj, _⟩ := (selectWalkIndex_some_iff r rest (s + v.2) (i + 1) j).1 hw
        have e : j - i = (j - (i + 1)) + 1 := by omega
        simp only [Option.some_bind, e, List.getElem?_cons_succ]

end SelectionLemmas

/-! ### Validator selection: claims -/

/-- On a non-empty list `selectValidator` returns the name of an entry, from inside the loop
or by the fallback. -/
theorem selectValidator_some_entry {α : Type} [Zero α] [Add α] [LE α]
    [DecidableRel (α := α) (· ≤ ·)] (validators : List (String × α)) (r : α)
    (hne : validators ≠ []) :
    ∃ v, v ∈ validators ∧ selectValidator validators r = some v.1 := by
  unfold selectValidator
  cases hw : selectWalk r validators 0 with
  | some name =>
    obtain ⟨v, hv, hn⟩ := selectWalk_mem r validators 0 name hw
    exact ⟨v, hv, by rw [hn]⟩
  | none =>
    refine ⟨validators.getLast hne, List.getLast_mem hne, ?_⟩
    simp [List.getLast?_eq_getLast validators hne]

/-- C11: for every non-empty validator list and every value of the draw `r`, also one for
which no entry satisfies `r <= cumulative`, `selectValidator` returns the name of some entry
of the list (whatever the arithmetic of the stakes is). -/
theorem selectValidator_mem {α : Type} [Zero α] [Add α] [LE α]
    [DecidableRel (α := α) (· ≤ ·)] (validators : List (String × α)) (r : α)
    (hne : validators ≠ []) :
    ∃ v, v ∈ validators ∧ selectValidator validators r = some v.1 :=
  selectValidator_some_entry validators r hne

/-- Witness of C11: on the validators of `main`, the draw 60 returns `"Validator_B"` from
inside the loop and the draw 500, above the total, returns the last name. -/
theorem selectValidator_mem_witness :
    mainValidators ≠ [] ∧
      (∃ v, v ∈ mainValidators ∧ selectValidator mainValidators 60 = some v.1) ∧
      (∃ v, v ∈ mainValidators ∧ selectValidator mainValidators 500 = some v.1) ∧
      selectValidator mainValidators 60 = some "Validator_B" ∧
      selectValidator mainValidators 500 = some "Validator_C" :=
  ⟨by decide, selectValidator_mem mainValidators 60 (by decide),
    selectValidator_mem mainValidators 500 (by decide),
    by norm_num [selectValidator, selectWalk, mainValidators],
    by norm_num [selectValidator, selectWalk, mainValidators]⟩

/-- C12 fails as stated: on a list whose weights are all 0 (total stake 0) and for the draw
0, `selectValidator` returns the name of the first entry; there is no error. -/
theorem selectValidator_zero_counterexample :
    totalStake ([("Validator_A", 0), ("Validator_B", 0)] : List (String × ℚ)) = 0 ∧
      selectValidator ([("Validator_A", 0), ("Validator_B", 0)] : List (String × ℚ)) 0
        = some "Validator_A" := by
  constructor
  · norm_num [totalStake]
  · norm_num [selectValidator, selectWalk]

/-- C12 as amended: `selectValidator` has no error path. On every non-empty list and for
every draw it returns the name of an entry; and on a non-empty list whose weights are all 0
the total stake is 0 and, for the draw 0, the name of the first entry is returned. -/
theorem selectValidator_no_error {α : Type} [LinearOrderedField α]
    (validators : List (String × α)) (hne : validators ≠ []) :
    (∀ r, ∃ v, v ∈ validators ∧ selectValidator validators r = some v.1) ∧
      ((∀ w, w ∈ validators → w.2 = 0) →
        totalStake validators = 0 ∧
          selectValidator validators 0 = some (validators.head hne).1) := by
  refine ⟨fun r => selectValidator_some_entry validators r hne, fun hzero => ⟨?_, ?_⟩⟩
  · have key : ∀ (l : List (String × α)), (∀ w, w ∈ l → w.2 = 0) →
        l.foldl (fun total w => total + w.2) 0 = 0 := by
      intro l
      induction l with
      | nil => intro _; rfl
      | cons w l' ih =>
        intro h
        rw [List.foldl_cons, h w (List.mem_cons_self _ _), add_zero]
        exact ih (fun x hx => h x (List.mem_cons_of_mem _ hx))
    exact key validators hzero
  · cases validators with
    | nil => exact absurd rfl hne
    | cons v rest =>
      have hv : v.2 = 0 := hzero v (List.mem_cons_self _ _)
      simp [selectValidator, selectWalk, hv]

/-- Witness of C12 as amended: the validators of `main` with the draw 60 (weights not zero),
and two validators with stake 0 with the draw 0. -/
theorem selectValidator_no_error_witness :
    (mainValidators ≠ [] ∧
        ([("Validator_A", 0), ("Validator_B", 0)] : List (String × ℚ)) ≠ [] ∧
        ∀ w, w ∈ ([("Validator_A", 0), ("Validator_B", 0)] : List (String × ℚ)) → w.2 = 0) ∧
      (∃ v, v ∈ mainValidators ∧ selectValidator mainValidators 60 = some v.1) ∧
      (totalStake ([("Validator_A", 0), ("Validator_B", 0)] : List (String × ℚ)) = 0 ∧
        selectValidator ([("Validator_A", 0), ("Validator_B", 0)] : List (String × ℚ)) 0
          = some "Validator_A") :=
  ⟨⟨by decide, by simp, by simp⟩,
    (selectValidator_no_error mainValidators (by decide)).1 60,
    (selectValidator_no_error ([("Validator_A", 0), ("Validator_B", 0)] : List (String × ℚ))
      (by simp)).2 (by simp)⟩

/-- C19: for every non-empty validator list and every draw `r` that is at most the total
(in particular with strictly positive weights and `0 ≤ r ≤ total` in exact arithmetic) the
walk returns from inside the loop, and `selectValidator` returns that name; the walk ends
without a `return`, so that the fallback is taken, exactly when no entry satisfies
`r <= cumulative`. -/
theorem selectWalk_returns {α : Type} [Zero α] [Add α] [LE α]
    [DecidableRel (α := α) (· ≤ ·)] (validators : List (String × α)) (r : α) :
    (validators ≠ [] → r ≤ totalStake validators →
        ∃ name, selectWalk r validators 0 = some name ∧
          selectValidator validators r = some name) ∧
      (selectWalk r validators 0 = none ↔
        ∀ k, k < validators.length → ¬ r ≤ cumulative validators (k + 1)) := by
  constructor
  · intro hne hr
    obtain ⟨name, hname⟩ := selectWalk_some_of_le r validators 0 hne hr
    exact ⟨name, hname, by simp [selectValidator, hname]⟩
  · simp only [cumulative, totalStake]
    rw [selectWalk_eq_index r validators 0 0]
    rw [← selectWalkIndex_none_iff r validators 0 0]
    cases hw : selectWalkIndex r validators 0 0 with
    | none => simp
    | some j =>
      obtain ⟨k, hk, hj, _⟩ := (selectWalkIndex_some_iff r validators 0 0 j).1 hw
      have hjl : j < validators.length := by omega
      simp [List.getElem?_eq_getElem hjl]

/-- Witness of C19: on the validators of `main` the draw 100, equal to the total, returns
from inside the loop at the last entry. -/
theorem selectWalk_returns_witness :
    (mainValidators ≠ [] ∧ (100 : ℚ) ≤ totalStake mainValidators) ∧
      ∃ name, selectWalk 100 mainValidators 0 = some name ∧
        selectValidator mainValidators 100 = some name :=
  ⟨⟨by decide, by norm_num [totalStake, mainValidators]⟩,
    (selectWalk_returns mainValidators 100).1 (by decide)
      (by norm_num [totalStake, mainValidators])⟩

/-! ### The empty Merkle root and the append of `Exercice2.cpp` -/

/-- C14: for the empty transaction sequence `merkleRoot` returns the empty string for
every digest function; the result does not depend on the digest, which is not applied.
The same holds for `Exercice1.cpp`. -/
theorem merkleRoot_nil (sha256 other : String → String) :
    Exercice4.merkleRoot sha256 [] = "" ∧ Exercice1.merkleRoot sha256 [] = "" ∧
      Exercice4.merkleRoot sha256 [] = Exercice4.merkleRoot other [] ∧
      Exercice1.merkleRoot sha256 [] = Exercice1.merkleRoot other [] :=
  ⟨rfl, rfl, rfl, rfl⟩

/-- C16: in `Exercice2.cpp`, on a chain that has a last block, `addBlock(b)` returns a chain
that is one block longer, whose earlier blocks are the blocks of the old chain in order,
and whose new last block is `b` with only `prevHash` replaced by the hash of the old last
block: every other field, the stored `hash` included, is that of `b`. -/
theorem addBlock2_frame (c : Exercice2.Blockchain) (last b : Exercice2.Block)
    (hl : c.getLastBlock = some last) :
    ∃ c', c.addBlock b = some c' ∧ c'.chain.length = c.chain.length + 1 ∧
      c'.chain.take c.chain.length = c.chain ∧
      (∀ i, i < c.chain.length → c'.chain[i]? = c.chain[i]?) ∧
      c'.getLastBlock = some { b with prevHash := last.hash } ∧
      ∀ nb, c'.getLastBlock = some nb →
        nb.prevHash = last.hash ∧ nb.hash = b.hash ∧ nb.index = b.index ∧
        nb.transactions = b.transactions ∧ nb.timestamp = b.timestamp ∧
        nb.nonce = b.nonce := by
  refine ⟨{ chain := c.chain ++ [{ b with prevHash := last.hash }] }, ?_, ?_, ?_, ?_, ?_, ?_⟩
  · simp [Exercice2.Blockchain.addBlock, hl]
  · simp
  · simp
  · intro i hi
    exact List.getElem?_append_left hi
  · simp [Exercice2.Blockchain.getLastBlock]
  · intro nb hnb
    simp [Exercice2.Blockchain.getLastBlock] at hnb
    subst hnb
    exact ⟨rfl, rfl, rfl, rfl, rfl, rfl⟩

/-- Witness of C16: appending a block with a stale `prevHash` to the two-block chain
`demoChain2`. -/
theorem addBlock2_frame_witness :
    Exercice4.demoChain2.getLastBlock = some Exercice4.demoLast2 ∧
      ∃ c', Exercice4.demoChain2.addBlock Exercice4.demoBlock2 = some c' ∧
        c'.chain.length = Exercice4.demoChain2.chain.length + 1 ∧
        c'.getLastBlock
          = some { Exercice4.demoBlock2 with prevHash := Exercice4.demoLast2.hash } :=
  ⟨by decide,
    (addBlock2_frame Exercice4.demoChain2 Exercice4.demoLast2 Exercice4.demoBlock2
      (by decide)).imp fun _ h => ⟨h.1, h.2.1, h.2.2.2.2.1⟩⟩

/-! ### The least nonce found by mining -/

namespace Exercice4

/-- One iteration of the mining loop does not change the digest obtained for a given
nonce: `calculateHash` reads neither the old nonce nor the stored hash. -/
theorem hashAt_step (sha256 : String → String) (b : Block) (n : Int) :
    Block.hashAt sha256
        { b with nonce := b.nonce + 1
                 hash := Block.calculateHash sha256 { b with nonce := b.nonce + 1 } } n
      = Block.hashAt sha256 b n :=
  rfl

/-- With `k` units of fuel the mining loop finds the least nonce above the starting nonce
that meets the difficulty, when there is one among the next `k` nonces. -/
theorem mineLoop_least (sha256 : String → String) (d : Nat) :
    ∀ (k : Nat) (b : Block) (n : Int), b.nonce < n → n ≤ b.nonce + k →
      Block.meets sha256 d b n →
      ∃ b', Block.mineLoop sha256 d (fill d '0') k b = some b' ∧
        b.nonce < b'.nonce ∧ b'.nonce ≤ n ∧ Block.meets sha256 d b b'.nonce ∧
        b'.hash = Block.hashAt sha256 b b'.nonce ∧
        ∀ m, b.nonce < m → m < b'.nonce → ¬ Block.meets sha256 d b m := by
  intro k
  induction k with
  | zero =>
    intro b n h1 h2 _
    simp only [Nat.cast_zero, add_zero] at h2
    omega
  | succ k ih =>
    intro b n h1 h2 hmeet
    simp only [Block.mineLoop]
    by_cases hnow : Block.meets sha256 d b (b.nonce + 1)
    · have hcond : ¬ (substr (Block.calculateHash sha256 { b with nonce := b.nonce + 1 }) 0 d
          != fill d '0') = true := by
        simpa [Block.meets, Block.hashAt] using hnow
      rw [if_neg hcond]
      refine ⟨_, rfl, ?_, ?_, hnow, rfl, ?_⟩
      · show b.nonce < b.nonce + 1
        omega
      · show b.nonce + 1 ≤ n
        omega
      · intro m hm1 hm2
        have : m < b.nonce + 1 := hm2
        omega
    · have hcond : (substr (Block.calculateHash sha256 { b with nonce := b.nonce + 1 }) 0 d
          != fill d '0') = true := by
        simpa [Block.meets, Block.hashAt] using hnow
      rw [if_pos hcond]
      have hne : n ≠ b.nonce + 1 := fun e => hnow (e ▸ hmeet)
      obtain ⟨b', hb', hlt, hle, hm, hh, hfirst⟩ :=
        ih { b with nonce := b.nonce + 1
                    hash := Block.calculateHash sha256 { b with nonce := b.nonce + 1 } } n
          (by show b.nonce + 1 < n; omega)
          (by show n ≤ b.nonce + 1 + (k : Int); push_cast at h2; omega)
          hmeet
      refine ⟨b', hb', ?_, hle, hm, hh, ?_⟩
      · have : b.nonce + 1 < b'.nonce := hlt
        omega
      · intro m hm1 hm2
        by_cases e : m = b.nonce + 1
        · rw [e]
          exact hnow
        · exact hfirst m (by show b.nonce + 1 < m; omega) hm2

end Exercice4

/-- C17: for every block with starting nonce `n0` and every difficulty `d`, if some nonce
`n > n0` makes the recomputed hash start with `d` characters `'0'`, then `mineBlock(d)`
returns (with `n - n0` units of fuel, and with the same result for any larger fuel), the
final nonce is the least such nonce, the final hash is the digest computed with that nonce,
and every nonce strictly between `n0` and the final nonce fails the test. -/
theorem mineBlock_least (sha256 : String → String) (d : Nat) (b : Exercice4.Block) (n : Int)
    (hn : b.nonce < n) (hmeet : b.meets sha256 d n) :
    ∃ b', (∀ extra, b.mineBlock sha256 d ((n - b.nonce).toNat + extra) = some b') ∧
      b.nonce < b'.nonce ∧ b.meets sha256 d b'.nonce ∧
      (∀ m, b.nonce < m → b.meets sha256 d m → b'.nonce ≤ m) ∧
      b'.hash = Exercice4.Block.calculateHash sha256 { b with nonce := b'.nonce } ∧
      (∀ m, b.nonce < m → m < b'.nonce → ¬ b.meets sha256 d m) := by
  obtain ⟨b', hb', hlt, _, hm, hh, hfirst⟩ :=
    Exercice4.mineLoop_least sha256 d (n - b.nonce).toNat b n hn
      (by rw [Int.toNat_of_nonneg (by omega)]; omega) hmeet
  refine ⟨b', fun extra => ?_, hlt, hm, fun m hm1 hm2 => ?_, hh, hfirst⟩
  · exact Exercice4.mineLoop_mono sha256 d (fill d '0') _ b b' hb' extra
  · by_contra hcon
    exact hfirst m hm1 (by omega) hm2

/-- Witness of C17: on `demoBlock` (nonce 0) the nonce 5 meets difficulty 4, and mining
returns `demoMined`, whose nonce is 5. -/
theorem mineBlock_least_witness :
    (Exercice4.demoBlock.nonce < 5 ∧ Exercice4.demoBlock.meets toyDigest 4 5) ∧
      ∃ b', (∀ extra, Exercice4.demoBlock.mineBlock toyDigest 4
          (((5 : Int) - Exercice4.demoBlock.nonce).toNat + extra) = some b') ∧
        Exercice4.demoBlock.nonce < b'.nonce :=
  ⟨⟨by decide, by unfold Exercice4.Block.meets; decide⟩,
    (mineBlock_least toyDigest 4 Exercice4.demoBlock 5 (by decide)
      (by unfold Exercice4.Block.meets; decide)).imp fun _ h => ⟨h.1, h.2.1⟩⟩

/-! ### Termination of the Merkle folding loop -/

/-- The result of the folding loop does not depend on the fuel once the fuel is enough. -/
theorem merkleLoop_mono (sha256 : String → String) :
    ∀ (fuel : Nat) (layer : List String) (root : String),
      merkleLoop sha256 fuel layer = some root →
      ∀ extra, merkleLoop sha256 (fuel + extra) layer = some root := by
  intro fuel
  induction fuel with
  | zero => intro layer root h; simp [merkleLoop] at h
  | succ n ih =>
    intro layer root h extra
    have hk : n + 1 + extra = (n + extra) + 1 := by omega
    rw [hk]
    simp only [merkleLoop] at h ⊢
    by_cases h1 : layer.length > 1
    · rw [if_pos h1] at h ⊢
      cases hp : hashPairs sha256 (padLayer layer) with
      | none => rw [hp] at h; cases h
      | some next =>
        rw [hp] at h
        exact ih next root h extra
    · rw [if_neg h1] at h ⊢
      exact h

/-- One pass of the folding loop over a layer of `n > 1` elements: the padded layer has an
even number of elements, every pair index is in range, and the next layer has `ceil(n/2)`
elements, which is fewer than `n` and more than none. -/
theorem merkle_pass (sha256 : String → String) (layer : List String)
    (h : 1 < layer.length) :
    ∃ next, hashPairs sha256 (padLayer layer) = some next ∧
      next.length = (layer.length + 1) / 2 ∧ next.length < layer.length ∧
      0 < next.length ∧ (padLayer layer).length = layer.length + layer.length % 2 ∧
      ∀ i, i < (padLayer layer).length → i % 2 = 0 → i + 1 < (padLayer layer).length := by
  have hne : layer ≠ [] := by
    intro e
    rw [e] at h
    simp at h
  have hpad := padLayer_length layer hne
  obtain ⟨next, hn, hl⟩ := hashPairs_even sha256 (padLayer layer) (by omega)
  refine ⟨next, hn, by omega, by omega, by omega, hpad, fun i hi he => ?_⟩
  omega

/-- The folding loop on a layer that is not empty: after some number `k` of passes the
layer has exactly one element, every earlier layer has more than one, and the loop returns
that element when it is given at least as much fuel as the layer has elements. -/
theorem merkleLoop_end (sha256 : String → String) :
    ∀ (fuel : Nat) (layer : List String), layer ≠ [] → layer.length ≤ fuel →
      ∃ k root, layerAfter sha256 k layer = some [root] ∧
        merkleLoop sha256 fuel layer = some root ∧
        ∀ j, j < k → ∃ l, layerAfter sha256 j layer = some l ∧ 1 < l.length := by
  intro fuel
  induction fuel with
  | zero =>
    intro layer hne hlen
    have : layer.length ≠ 0 := fun e => hne (List.length_eq_zero.1 e)
    omega
  | succ n ih =>
    intro layer hne hlen
    by_cases h1 : layer.length > 1
    · obtain ⟨next, hn, _, hlt, hpos, _, _⟩ := merkle_pass sha256 layer h1
      have hnext : next ≠ [] := by
        intro e
        rw [e] at hpos
        simp at hpos
      obtain ⟨k, root, hk, hroot, hbefore⟩ := ih next hnext (by omega)
      refine ⟨k + 1, root, by simp [layerAfter, hn, hk], by simp [merkleLoop, h1, hn, hroot],
        fun j hj => ?_⟩
      cases j with
      | zero => exact ⟨layer, rfl, h1⟩
      | succ j' =>
        obtain ⟨l, hl, hlen'⟩ := hbefore j' (by omega)
        exact ⟨l, by simp [layerAfter, hn, hl], hlen'⟩
    · cases layer with
      | nil => exact absurd rfl hne
      | cons x rest =>
        cases rest with
        | nil =>
          refine ⟨0, x, rfl, by simp [merkleLoop], fun j hj => absurd hj (Nat.not_lt_zero j)⟩
        | cons y rest' =>
          simp at h1

/-- C18: for every non-empty transaction sequence the folding loop of `merkleRoot`
terminates: after some number of passes the layer has exactly one element, which is the
value returned (with `size` units of fuel or more), every earlier layer having more than
one element; and each pass over a layer of `n > 1` elements pads it to an even length,
reads no pair index out of range and produces `ceil(n/2)` elements, fewer than `n`. The
same holds for `Exercice1.cpp`. -/
theorem merkleLoop_terminates (sha256 : String → String)
    (txs : List Exercice4.Transaction) (transactions : List String) :
    (txs ≠ [] →
        ∃ k root, layerAfter sha256 k (txs.map fun t => sha256 t.toString) = some [root] ∧
          (∀ j, j < k → ∃ l, layerAfter sha256 j (txs.map fun t => sha256 t.toString)
            = some l ∧ 1 < l.length) ∧
          (∀ extra, merkleLoop sha256 (txs.length + extra)
            (txs.map fun t => sha256 t.toString) = some root) ∧
          Exercice4.merkleRoot sha256 txs = root) ∧
      (transactions ≠ [] →
        ∃ k root, layerAfter sha256 k (transactions.map sha256) = some [root] ∧
          (∀ j, j < k → ∃ l, layerAfter sha256 j (transactions.map sha256)
            = some l ∧ 1 < l.length) ∧
          (∀ extra, merkleLoop sha256 (transactions.length + extra)
            (transactions.map sha256) = some root) ∧
          Exercice1.merkleRoot sha256 transactions = root) ∧
      (∀ layer : List String, 1 < layer.length →
        ∃ next, hashPairs sha256 (padLayer layer) = some next ∧
          next.length = (layer.length + 1) / 2 ∧ next.length < layer.length ∧
          0 < next.length ∧ (padLayer layer).length = layer.length + layer.length % 2 ∧
          ∀ i, i < (padLayer layer).length → i % 2 = 0 →
            i + 1 < (padLayer layer).length) := by
  refine ⟨fun hne => ?_, fun hne => ?_, fun layer h => merkle_pass sha256 layer h⟩
  · have hne' : (txs.map fun t => sha256 t.toString) ≠ [] := by simpa using hne
    obtain ⟨k, root, hk, hroot, hbefore⟩ :=
      merkleLoop_end sha256 txs.length _ hne' (by simp)
    refine ⟨k, root, hk, hbefore, fun extra => merkleLoop_mono sha256 _ _ _ hroot extra, ?_⟩
    have hemp : txs.isEmpty = false := by
      cases txs with
      | nil => exact absurd rfl hne
      | cons _ _ => rfl
    simp [Exercice4.merkleRoot, hemp, hroot]
  · have hne' : transactions.map sha256 ≠ [] := by simpa using hne
    obtain ⟨k, root, hk, hroot, hbefore⟩ :=
      merkleLoop_end sha256 transactions.length _ hne' (by simp)
    refine ⟨k, root, hk, hbefore, fun extra => merkleLoop_mono sha256 _ _ _ hroot extra, ?_⟩
    have hemp : transactions.isEmpty = false := by
      cases transactions with
      | nil => exact absurd rfl hne
      | cons _ _ => rfl
    simp [Exercice1.merkleRoot, hemp, hroot]

/-- Witness of C18: the three transactions of `main`, three strings, and one pass over a
layer of three elements. -/
theorem merkleLoop_terminates_witness :
    (Exercice4.mainTxs ≠ [] ∧ (["a", "b", "c"] : List String) ≠ [] ∧
        1 < (["x", "y", "z"] : List String).length) ∧
      (∃ k root, layerAfter plainDigest k
          (Exercice4.mainTxs.map fun t => plainDigest t.toString) = some [root] ∧
        (∀ j, j < k → ∃ l, layerAfter plainDigest j
          (Exercice4.mainTxs.map fun t => plainDigest t.toString) = some l ∧ 1 < l.length) ∧
        (∀ extra, merkleLoop plainDigest (Exercice4.mainTxs.length + extra)
          (Exercice4.mainTxs.map fun t => plainDigest t.toString) = some root) ∧
        Exercice4.merkleRoot plainDigest Exercice4.mainTxs = root) ∧
      (∃ next, hashPairs plainDigest (padLayer ["x", "y", "z"]) = some next ∧
        next.length = ((["x", "y", "z"] : List String).length + 1) / 2) :=
  ⟨by decide,
    (merkleLoop_terminates plainDigest Exercice4.mainTxs ["a", "b", "c"]).1 (by decide),
    ((merkleLoop_terminates plainDigest Exercice4.mainTxs ["a", "b", "c"]).2.2
      ["x", "y", "z"] (by decide)).imp fun _ h => ⟨h.1, h.2.1⟩⟩

/-! ### Two transaction sequences with the same Merkle root -/

/-- On a layer of odd length at least 3, the folding loop started on the layer followed by
a copy of its last element returns what it returns on the layer itself. -/
theorem merkleLoop_append_last (sha256 : String → String) (layer : List String)
    (x : String) (hodd : layer.length % 2 = 1) (h3 : 3 ≤ layer.length)
    (hlast : layer.getLast? = some x) :
    merkleLoop sha256 (layer.length + 1) (layer ++ [x])
      = merkleLoop sha256 layer.length layer := by
  have hpad1 : padLayer layer = layer ++ [x] := by
    simp [padLayer, hodd, hlast]
  have hlen2 : (layer ++ [x]).length % 2 = 0 := by
    simp only [List.length_append, List.length_singleton]
    omega
  have hpad2 : padLayer (layer ++ [x]) = layer ++ [x] := by
    unfold padLayer
    rw [hlen2]
    rfl
  obtain ⟨next, hn, hl⟩ := hashPairs_even sha256 (layer ++ [x]) hlen2
  simp only [List.length_append, List.length_singleton] at hl
  have hnext : next ≠ [] := by
    intro e
    rw [e] at hl
    simp only [List.length_nil] at hl
    omega
  obtain ⟨m, hm⟩ : ∃ m, layer.length = m + 1 := ⟨layer.length - 1, by omega⟩
  obtain ⟨root, hroot⟩ := merkleLoop_isSome sha256 m next hnext (by omega)
  have hroot' := merkleLoop_mono sha256 m next root hroot 1
  have e1 : merkleLoop sha256 (layer.length + 1) (layer ++ [x]) = some root := by
    have hgt : (layer ++ [x]).length > 1 := by
      simp only [List.length_append, List.length_singleton]
      omega
    rw [hm]
    simp only [merkleLoop]
    rw [if_pos hgt, hpad2, hn]
    exact hroot'
  have e2 : merkleLoop sha256 layer.length layer = some root := by
    have hgt : layer.length > 1 := by omega
    rw [hm]
    simp only [merkleLoop]
    rw [if_pos hgt, hpad1, hn]
    exact hroot
  rw [e1, e2]

/-- C20: for every transaction sequence `T` of odd length at least 3 and every digest
function, `merkleRoot(T ++ [last(T)])` equals `merkleRoot(T)`, although the two sequences
differ; the same holds for `Exercice1.cpp`. -/
theorem merkleRoot_append_last (sha256 : String → String)
    (txs : List Exercice4.Transaction) (last : Exercice4.Transaction)
    (transactions : List String) (lastString : String) :
    (txs.length % 2 = 1 → 3 ≤ txs.length → txs.getLast? = some last →
        Exercice4.merkleRoot sha256 (txs ++ [last]) = Exercice4.merkleRoot sha256 txs ∧
        txs ++ [last] ≠ txs) ∧
      (transactions.length % 2 = 1 → 3 ≤ transactions.length →
        transactions.getLast? = some lastString →
        Exercice1.merkleRoot sha256 (transactions ++ [lastString])
          = Exercice1.merkleRoot sha256 transactions ∧
        transactions ++ [lastString] ≠ transactions) := by
  constructor
  · intro hodd h3 hlast
    refine ⟨?_, fun e => ?_⟩
    · have hemp : txs.isEmpty = false := by
        cases txs with
        | nil => simp at h3
        | cons _ _ => rfl
      have hl : (txs.map fun t => sha256 t.toString).getLast?
          = some (sha256 last.toString) := by
        simp [List.getLast?_map, hlast]
      have key := merkleLoop_append_last sha256 (txs.map fun t => sha256 t.toString)
        (sha256 last.toString) (by simpa using hodd) (by simpa using h3) hl
      simp only [List.length_map] at key
      simp [Exercice4.merkleRoot, hemp, key]
    · have := congrArg List.length e
      simp at this
  · intro hodd h3 hlast
    refine ⟨?_, fun e => ?_⟩
    · have hemp : transactions.isEmpty = false := by
        cases transactions with
        | nil => simp at h3
        | cons _ _ => rfl
      have hl : (transactions.map sha256).getLast? = some (sha256 lastString) := by
        simp [List.getLast?_map, hlast]
      have key := merkleLoop_append_last sha256 (transactions.map sha256)
        (sha256 lastString) (by simpa using hodd) (by simpa using h3) hl
      simp only [List.length_map] at key
      simp [Exercice1.merkleRoot, hemp, key]
    · have := congrArg List.length e
      simp at this

/-- Witness of C20: the three transactions of `main` and the same followed by a copy of the
third have the same root under the digest without collisions. -/
theorem merkleRoot_append_last_witness :
    (Exercice4.mainTxs.length % 2 = 1 ∧ 3 ≤ Exercice4.mainTxs.length ∧
        Exercice4.mainTxs.getLast?
          = some { id := "T3", sender := "Imad", receiver := "Smail", amount := 2 } ∧
        (["a", "b", "c"] : List String).length % 2 = 1 ∧
        3 ≤ (["a", "b", "c"] : List String).length ∧
        (["a", "b", "c"] : List String).getLast? = some "c") ∧
      (Exercice4.merkleRoot plainDigest (Exercice4.mainTxs
          ++ [{ id := "T3", sender := "Imad", receiver := "Smail", amount := 2 }])
        = Exercice4.merkleRoot plainDigest Exercice4.mainTxs ∧
        Exercice4.mainTxs
          ++ [{ id := "T3", sender := "Imad", receiver := "Smail", amount := 2 }]
          ≠ Exercice4.mainTxs) ∧
      (Exercice1.merkleRoot plainDigest (["a", "b", "c"] ++ ["c"])
        = Exercice1.merkleRoot plainDigest ["a", "b", "c"] ∧
        (["a", "b", "c"] : List String) ++ ["c"] ≠ ["a", "b", "c"]) :=
  ⟨by decide,
    (merkleRoot_append_last plainDigest Exercice4.mainTxs
      { id := "T3", sender := "Imad", receiver := "Smail", amount := 2 }
      ["a", "b", "c"] "c").1 (by decide) (by decide) (by decide),
    (merkleRoot_append_last plainDigest Exercice4.mainTxs
      { id := "T3", sender := "Imad", receiver := "Smail", amount := 2 }
      ["a", "b", "c"] "c").2 (by decide) (by decide) (by decide)⟩

/-! ### The hexadecimal rendering of the digest -/

/-- A byte is rendered as its two hexadecimal digits, the high one first. -/
theorem hexWidth2_byte :
    ∀ b, b < 256 → hexWidth2 b = ⟨[Nat.digitChar (b / 16), Nat.digitChar (b % 16)]⟩ := by
  decide

/-- The digit characters below 16 are the lowercase hexadecimal digits. -/
theorem digitChar_hex : ∀ n, n < 16 → Nat.digitChar n ∈ "0123456789abcdef".data := by
  decide

/-- Appending the texts `f i` one after the other is joining them. -/
theorem foldl_append_join (f : Nat → String) (l : List Nat) (init : String) :
    l.foldl (fun ss i => ss ++ f i) init = init ++ String.join (l.map f) := by
  induction l generalizing init with
  | nil => simp [String.join]
  | cons t rest ih =>
    rw [List.foldl_cons, ih, String.append_assoc]
    congr 1
    apply String.ext
    simp [String.join_eq]

/-- The characters of `n` pairs written one after the other: there are `2 * n` of them
and the pair `i` is at the positions `2 * i` and `2 * i + 1`. -/
theorem pairs_flatten (hi lo : Nat → Char) :
    ∀ n, (((List.range n).map fun i => [hi i, lo i]).flatten).length = 2 * n ∧
      ∀ i, i < n →
        (((List.range n).map fun i => [hi i, lo i]).flatten)[2 * i]? = some (hi i) ∧
        (((List.range n).map fun i => [hi i, lo i]).flatten)[2 * i + 1]? = some (lo i) := by
  intro n
  induction n with
  | zero => simp
  | succ n ih =>
    obtain ⟨hlen, hget⟩ := ih
    rw [List.range_succ, List.map_append, List.flatten_append]
    refine ⟨by simp [hlen]; omega, fun i hi' => ?_⟩
    by_cases h : i < n
    · obtain ⟨h1, h2⟩ := hget i h
      rw [List.getElem?_append_left (by omega), List.getElem?_append_left (by omega)]
      exact ⟨h1, h2⟩
    · have e : i = n := by omega
      subst e
      rw [List.getElem?_append_right (by omega), List.getElem?_append_right (by omega)]
      simp [hlen]

/-- C15: for every input string and whatever the 32 digest bytes are, `sha256` returns a
string of exactly 64 characters, each a lowercase hexadecimal digit: the byte `i` is
rendered as exactly two zero-padded hexadecimal characters, at the positions `2 * i` and
`2 * i + 1`, in byte order. -/
theorem sha256_hex (SHA256 : String → Nat → Nat) (data : String) :
    (sha256 SHA256 data).length = 64 ∧
      (∀ c, c ∈ (sha256 SHA256 data).data → c ∈ "0123456789abcdef".data) ∧
      (∀ i, i < 32 →
        (sha256 SHA256 data).data[2 * i]?
          = some (Nat.digitChar (SHA256 data i % 256 / 16)) ∧
        (sha256 SHA256 data).data[2 * i + 1]?
          = some (Nat.digitChar (SHA256 data i % 256 % 16))) ∧
      sha256 SHA256 data
        = String.join ((List.range 32).map fun i => hexWidth2 (SHA256 data i % 256)) := by
  have hdata : (sha256 SHA256 data).data
      = ((List.range 32).map fun i =>
          [Nat.digitChar (SHA256 data i % 256 / 16),
           Nat.digitChar (SHA256 data i % 256 % 16)]).flatten := by
    unfold sha256
    rw [foldl_append_join]
    simp only [SHA256_DIGEST_LENGTH, String.join_eq, String.data_append, List.map_map]
    have : (String.data ∘ fun i => hexWidth2 (SHA256 data i % 256))
        = fun i => [Nat.digitChar (SHA256 data i % 256 / 16),
           Nat.digitChar (SHA256 data i % 256 % 16)] := by
      funext i
      simp only [Function.comp]
      rw [hexWidth2_byte _ (Nat.mod_lt _ (by decide))]
    rw [this]
    rfl
  obtain ⟨hlen, hget⟩ := pairs_flatten
    (fun i => Nat.digitChar (SHA256 data i % 256 / 16))
    (fun i => Nat.digitChar (SHA256 data i % 256 % 16)) 32
  refine ⟨?_, ?_, ?_, ?_⟩
  · show (sha256 SHA256 data).data.length = 64
    rw [hdata, hlen]
  · intro c hc
    rw [hdata] at hc
    simp only [List.mem_flatten, List.mem_map, List.mem_range] at hc
    obtain ⟨l, ⟨i, _, rfl⟩, hcl⟩ := hc
    simp only [List.mem_cons, List.mem_singleton, List.not_mem_nil, or_false] at hcl
    rcases hcl with rfl | rfl
    · exact digitChar_hex _ (by omega)
    · exact digitChar_hex _ (Nat.mod_lt _ (by decide))
  · intro i hi
    rw [hdata]
    exact hget i hi
  · unfold sha256
    rw [foldl_append_join]
    apply String.ext
    simp [SHA256_DIGEST_LENGTH]

/-! ### Validator selection in exact arithmetic -/

section SelectionIndex

variable {α : Type} [Zero α] [Add α] [LE α] [DecidableRel (α := α) (· ≤ ·)]

/-- The name returned by `selectValidator` is the name of the entry at the position given
by `selectIndex`. -/
theorem selectValidator_eq_index (validators : List (String × α)) (r : α) :
    selectValidator validators r
      = (selectIndex validators r).bind (fun i => (validators[i]?).map (fun v => v.1)) := by
  unfold selectValidator selectIndex
  rw [selectWalk_eq_index r validators 0 0]
  cases hw : selectWalkIndex r validators 0 0 with
  | some j =>
    simp only [Option.some_bind, Nat.sub_zero]
    cases hj : validators[j]? with
    | none =>
      obtain ⟨k, hk, hjk, _⟩ := (selectWalkIndex_some_iff r validators 0 0 j).1 hw
      have : j < validators.length := by omega
      rw [List.getElem?_eq_getElem this] at hj
      cases hj
    | some v => rfl
  | none =>
    cases validators with
    | nil => rfl
    | cons v rest =>
      simp only [Option.none_bind, List.isEmpty_cons, Bool.false_eq_true, if_false,
        Option.some_bind]
      rw [List.getLast?_eq_getElem?]

/-- When the draw is at most the total of a non-empty list, `selectIndex` gives the first
position at which the draw is at most the cumulative sum. -/
theorem selectIndex_first (validators : List (String × α)) (r : α) (i : Nat)
    (hne : validators ≠ []) (hr : r ≤ totalStake validators) :
    selectIndex validators r = some i ↔
      i < validators.length ∧ r ≤ cumulative validators (i + 1) ∧
        ∀ m, m < i → ¬ r ≤ cumulative validators (m + 1) := by
  unfold selectIndex
  cases hw : selectWalkIndex r validators 0 0 with
  | some j =>
    simp only [Option.some.injEq]
    have hspec := selectWalkIndex_some_iff r validators 0 0
    constructor
    · intro e
      subst e
      obtain ⟨k, hk, hjk, hle, hfirst⟩ := (hspec j).1 hw
      have e : j = k := by omega
      subst e
      exact ⟨hk, hle, hfirst⟩
    · rintro ⟨hi, hle, hfirst⟩
      have hi' : selectWalkIndex r validators 0 0 = some i :=
        (hspec i).2 ⟨i, hi, by omega, hle, hfirst⟩
      rw [hw] at hi'
      exact Option.some.inj hi'
  | none =>
    exfalso
    have hnone := (selectWalkIndex_none_iff r validators 0 0).1 hw
    have hlen : 0 < validators.length := List.length_pos.2 hne
    have := hnone (validators.length - 1) (by omega)
    apply this
    have e : validators.length - 1 + 1 = validators.length := by omega
    rw [e, List.take_length]
    exact hr

end SelectionIndex

section SelectionField

variable {α : Type} [LinearOrderedField α]

/-- The running sum started at `s` is `s` plus the sum of the weights. -/
theorem foldl_stake (l : List (String × α)) (s : α) :
    l.foldl (fun total v => total + v.2) s = s + (l.map fun v => v.2).sum := by
  induction l generalizing s with
  | nil => simp
  | cons v rest ih =>
    rw [List.foldl_cons, ih, List.map_cons, List.sum_cons, add_assoc]

/-- Each cumulative sum is the one before plus the weight of the entry. -/
theorem cumulative_succ (validators : List (String × α)) (k : Nat)
    (hk : k < validators.length) :
    cumulative validators (k + 1) = cumulative validators k + (validators.get ⟨k, hk⟩).2 := by
  unfold cumulative totalStake
  rw [List.take_succ, List.foldl_append, List.getElem?_eq_getElem hk]
  rfl

/-- With positive weights the cumulative sums do not decrease. -/
theorem cumulative_mono (validators : List (String × α))
    (hpos : ∀ v, v ∈ validators → 0 < v.2) :
    ∀ k j, j ≤ k → k ≤ validators.length → cumulative validators j ≤ cumulative validators k := by
  intro k
  induction k with
  | zero =>
    intro j hj _
    have : j = 0 := by omega
    rw [this]
  | succ k ih =>
    intro j hj hk
    by_cases e : j = k + 1
    · rw [e]
    · have h1 := ih j (by omega) (by omega)
      have hk' : k < validators.length := by omega
      have h2 := cumulative_succ validators k hk'
      have h3 : 0 < (validators.get ⟨k, hk'⟩).2 := hpos _ (List.get_mem _ _ _)
      rw [h2]
      linarith

/-- The cumulative sum over the whole list is the total. -/
theorem cumulative_length (validators : List (String × α)) :
    cumulative validators validators.length = totalStake validators := by
  unfold cumulative
  rw [List.take_length]

/-- With positive weights, the position `i` is the first at which the draw is at most the
cumulative sum exactly when the draw is above the cumulative sum before `i` (nothing is
asked for `i = 0`) and at most the cumulative sum at `i`. -/
theorem selectIndex_interval (validators : List (String × α)) (r : α) (i : Nat)
    (hi : i < validators.length) (hpos : ∀ v, v ∈ validators → 0 < v.2)
    (hr : r ≤ totalStake validators) :
    selectIndex validators r = some i ↔
      (i = 0 ∨ cumulative validators i < r) ∧ r ≤ cumulative validators (i + 1) := by
  have hne : validators ≠ [] := by
    intro e
    rw [e] at hi
    simp at hi
  rw [selectIndex_first validators r i hne hr]
  constructor
  · rintro ⟨_, hle, hfirst⟩
    refine ⟨?_, hle⟩
    by_cases h0 : i = 0
    · exact Or.inl h0
    · right
      have := hfirst (i - 1) (by omega)
      have e : i - 1 + 1 = i := by omega
      rw [e] at this
      exact lt_of_not_le this
  · rintro ⟨hlow, hle⟩
    refine ⟨hi, hle, fun m hm hcon => ?_⟩
    rcases hlow with h0 | hlt
    · omega
    · have := cumulative_mono validators hpos i (m + 1) (by omega) (by omega)
      linarith

end SelectionField

/-! ### The distribution of the selected validator -/

/-- C13: for a list of validators with strictly positive weights, an entry `i` of the list
and every draw `r` with `0 ≤ r ≤ total` in exact arithmetic, `selectValidator` returns the
entry `i` exactly when `i` is the first index with `r <= cumulative_i`, that is exactly when
`cumulative_{i-1} < r <= cumulative_i` (only `r <= cumulative_0` for `i = 0`), and it then
returns the name of that entry; the draws that select the entry `i` form an interval inside
`[0, total]` of length `weight[i]`, and under a draw uniform on `[0, total]` the entry `i` is
selected with probability `weight[i] / total`. -/
theorem selectValidator_interval (validators : List (String × ℝ)) (i : Nat)
    (hi : i < validators.length) (hpos : ∀ v, v ∈ validators → 0 < v.2) :
    (∀ r, 0 ≤ r → r ≤ totalStake validators →
        (selectIndex validators r = some i ↔
          r ≤ cumulative validators (i + 1) ∧
            ∀ m, m < i → ¬ r ≤ cumulative validators (m + 1)) ∧
        (selectIndex validators r = some i ↔
          (i = 0 ∨ cumulative validators i < r) ∧ r ≤ cumulative validators (i + 1)) ∧
        (selectIndex validators r = some i →
          selectValidator validators r = some (validators.get ⟨i, hi⟩).1)) ∧
      cumulative validators (i + 1) - cumulative validators i = (validators.get ⟨i, hi⟩).2 ∧
      0 ≤ cumulative validators i ∧
      cumulative validators (i + 1) ≤ totalStake validators ∧
      {r | 0 ≤ r ∧ r ≤ totalStake validators ∧ selectIndex validators r = some i}
        = (if i = 0 then Set.Icc 0 (cumulative validators 1)
            else Set.Ioc (cumulative validators i) (cumulative validators (i + 1))) ∧
      MeasureTheory.volume
          {r | 0 ≤ r ∧ r ≤ totalStake validators ∧ selectIndex validators r = some i}
        = ENNReal.ofReal (validators.get ⟨i, hi⟩).2 ∧
      ProbabilityTheory.cond MeasureTheory.volume (Set.Icc 0 (totalStake validators))
          {r | selectIndex validators r = some i}
        = ENNReal.ofReal ((validators.get ⟨i, hi⟩).2 / totalStake validators) := by
  have hne : validators ≠ [] := by
    intro e
    rw [e] at hi
    simp at hi
  have hsucc := cumulative_succ validators i hi
  have hw : 0 < (validators.get ⟨i, hi⟩).2 := hpos _ (List.get_mem _ _ _)
  have h0 : 0 ≤ cumulative validators i := by
    have := cumulative_mono validators hpos i 0 (by omega) (by omega)
    simpa [cumulative, totalStake] using this
  have htop : cumulative validators (i + 1) ≤ totalStake validators := by
    have := cumulative_mono validators hpos validators.length (i + 1) (by omega) (le_refl _)
    rwa [cumulative_length] at this
  have htotal : 0 < totalStake validators := by linarith
  have hset : {r | 0 ≤ r ∧ r ≤ totalStake validators ∧ selectIndex validators r = some i}
      = (if i = 0 then Set.Icc 0 (cumulative validators 1)
          else Set.Ioc (cumulative validators i) (cumulative validators (i + 1))) := by
    ext r
    by_cases hz : i = 0
    · subst hz
      simp only [Set.mem_setOf_eq, if_true, Set.mem_Icc]
      constructor
      · rintro ⟨hr0, hr1, hsel⟩
        exact ⟨hr0, ((selectIndex_interval validators r 0 hi hpos hr1).1 hsel).2⟩
      · rintro ⟨hr0, hr1⟩
        have hr : r ≤ totalStake validators := le_trans hr1 htop
        exact ⟨hr0, hr, (selectIndex_interval validators r 0 hi hpos hr).2 ⟨Or.inl rfl, hr1⟩⟩
    · simp only [Set.mem_setOf_eq, if_neg hz, Set.mem_Ioc]
      constructor
      · rintro ⟨_, hr1, hsel⟩
        obtain ⟨hlow, hup⟩ := (selectIndex_interval validators r i hi hpos hr1).1 hsel
        rcases hlow with h | h
        · exact absurd h hz
        · exact ⟨h, hup⟩
      · rintro ⟨hlow, hup⟩
        have hr : r ≤ totalStake validators := le_trans hup htop
        exact ⟨by linarith, hr,
          (selectIndex_interval validators r i hi hpos hr).2 ⟨Or.inr hlow, hup⟩⟩
  have hvol : MeasureTheory.volume
      {r | 0 ≤ r ∧ r ≤ totalStake validators ∧ selectIndex validators r = some i}
        = ENNReal.ofReal (validators.get ⟨i, hi⟩).2 := by
    rw [hset]
    by_cases hz : i = 0
    · subst hz
      rw [if_pos rfl, Real.volume_Icc]
      congr 1
      have : cumulative validators 0 = 0 := rfl
      linarith
    · rw [if_neg hz, Real.volume_Ioc]
      congr 1
      linarith
  refine ⟨fun r _ hr => ⟨?_, selectIndex_interval validators r i hi hpos hr, fun hsel => ?_⟩,
    by linarith, h0, htop, hset, hvol, ?_⟩
  · rw [selectIndex_first validators r i hne hr]
    exact ⟨fun h => ⟨h.2.1, h.2.2⟩, fun h => ⟨hi, h.1, h.2⟩⟩
  · rw [selectValidator_eq_index, hsel]
    simp [List.getElem?_eq_getElem hi]
  · rw [ProbabilityTheory.cond_apply measurableSet_Icc, Real.volume_Icc]
    have hinter : Set.Icc 0 (totalStake validators) ∩ {r | selectIndex validators r = some i}
        = {r | 0 ≤ r ∧ r ≤ totalStake validators ∧ selectIndex validators r = some i} := by
      ext r
      simp only [Set.mem_inter_iff, Set.mem_Icc, Set.mem_setOf_eq]
      tauto
    rw [hinter, hvol, sub_zero, ENNReal.ofReal_div_of_pos htotal, div_eq_mul_inv, mul_comm]

/-- Witness of C13: the validators of `main`, the entry at position 1 and the draw 60. -/
theorem selectValidator_interval_witness :
    ((1 : Nat) < ([("Validator_A", 50), ("Validator_B", 30), ("Validator_C", 20)]
          : List (String × ℝ)).length ∧
        (∀ v, v ∈ ([("Validator_A", 50), ("Validator_B", 30), ("Validator_C", 20)]
          : List (String × ℝ)) → 0 < v.2) ∧
        (0 : ℝ) ≤ 60 ∧
        (60 : ℝ) ≤ totalStake ([("Validator_A", 50), ("Validator_B", 30), ("Validator_C", 20)]
          : List (String × ℝ))) ∧
      (selectIndex ([("Validator_A", 50), ("Validator_B", 30), ("Validator_C", 20)]
          : List (String × ℝ)) 60 = some 1 ↔
        (1 = 0 ∨ cumulative ([("Validator_A", 50), ("Validator_B", 30), ("Validator_C", 20)]
          : List (String × ℝ)) 1 < 60) ∧
        60 ≤ cumulative ([("Validator_A", 50), ("Validator_B", 30), ("Validator_C", 20)]
          : List (String × ℝ)) (1 + 1)) ∧
      ProbabilityTheory.cond MeasureTheory.volume
          (Set.Icc 0 (totalStake ([("Validator_A", 50), ("Validator_B", 30),
            ("Validator_C", 20)] : List (String × ℝ))))
          {r | selectIndex ([("Validator_A", 50), ("Validator_B", 30), ("Validator_C", 20)]
            : List (String × ℝ)) r = some 1}
        = ENNReal.ofReal
          ((([("Validator_A", 50), ("Validator_B", 30), ("Validator_C", 20)]
              : List (String × ℝ)).get ⟨1, by simp⟩).2
            / totalStake ([("Validator_A", 50), ("Validator_B", 30), ("Validator_C", 20)]
              : List (String × ℝ))) :=
  ⟨⟨by simp, by simp, by norm_num, by norm_num [totalStake]⟩,
    ((selectValidator_interval [("Validator_A", 50), ("Validator_B", 30), ("Validator_C", 20)]
      1 (by simp) (by simp)).1 60 (by norm_num) (by norm_num [totalStake])).2.1,
    (selectValidator_interval [("Validator_A", 50), ("Validator_B", 30), ("Validator_C", 20)]
      1 (by simp) (by simp)).2.2.2.2.2.2⟩

/-! ### Two blocks with the same hashed text -/

/-- The decimal texts of 1 then 23 and of 12 then 3, written after the same text without a
separator, give the same text. -/
theorem append_1_23_eq_12_3 (s : String) :
    s ++ toString (1 : Int) ++ toString (23 : Int)
      = s ++ toString (12 : Int) ++ toString (3 : Int) := by
  rw [String.append_assoc, String.append_assoc]
  congr 1

/-- C21: `calculateHash` writes the decimal texts of its fields one after the other with no
separator, so the block with timestamp 1 and nonce 23 and the block with timestamp 12 and
nonce 3, all other fields being equal, are different blocks with the same hashed text (it
reads `...123...` in both) and `calculateHash` returns the same digest on both for every
digest function; this holds for the blocks of `Exercice4.cpp` and of `Exercice2.cpp`. -/
theorem calculateHash_ambiguous (sha256 : String → String) (b : Exercice4.Block)
    (b2 : Exercice2.Block) :
    (({ b with timestamp := 1, nonce := 23 } : Exercice4.Block)
          ≠ { b with timestamp := 12, nonce := 3 } ∧
        Exercice4.Block.hashInput { b with timestamp := 1, nonce := 23 }
          = Exercice4.Block.hashInput { b with timestamp := 12, nonce := 3 } ∧
        Exercice4.Block.calculateHash sha256 { b with timestamp := 1, nonce := 23 }
          = Exercice4.Block.calculateHash sha256 { b with timestamp := 12, nonce := 3 }) ∧
      (({ b2 with timestamp := 1, nonce := 23 } : Exercice2.Block)
          ≠ { b2 with timestamp := 12, nonce := 3 } ∧
        Exercice2.Block.hashInput { b2 with timestamp := 1, nonce := 23 }
          = Exercice2.Block.hashInput { b2 with timestamp := 12, nonce := 3 } ∧
        Exercice2.Block.calculateHash sha256 { b2 with timestamp := 1, nonce := 23 }
          = Exercice2.Block.calculateHash sha256 { b2 with timestamp := 12, nonce := 3 }) := by
  have h4 : Exercice4.Block.hashInput { b with timestamp := 1, nonce := 23 }
      = Exercice4.Block.hashInput { b with timestamp := 12, nonce := 3 } := by
    simp only [Exercice4.Block.hashInput]
    rw [append_1_23_eq_12_3]
  have h2 : Exercice2.Block.hashInput { b2 with timestamp := 1, nonce := 23 }
      = Exercice2.Block.hashInput { b2 with timestamp := 12, nonce := 3 } := by
    simp only [Exercice2.Block.hashInput]
    rw [append_1_23_eq_12_3]
  refine ⟨⟨fun e => ?_, h4, ?_⟩, ⟨fun e => ?_, h2, ?_⟩⟩
  · have hn := congrArg Exercice4.Block.nonce e
    simp at hn
  · simp only [Exercice4.Block.calculateHash, h4]
  · have hn := congrArg Exercice2.Block.nonce e
    simp at hn
  · simp only [Exercice2.Block.calculateHash, h2]
